import Mathlib

/-!
Verification of the content-extraction pipeline of the websearch-fallback skill
(`lib/converter.py`): main-content extraction, markdown rendering (fallback
path), whitespace normalization, and length-bounded truncation.

Python strings are embedded as `List Char`; Python `int` as `Int` where sign
matters.  The BeautifulSoup document tree is embedded as a `Node` tree, and the
BeautifulSoup calls used by the source (`find`, `find_all`, `decompose`) are
embedded with their documented semantics over that tree.  The pipeline's own
logic is translated line by line from `lib/converter.py`.
-/

abbrev Str := List Char

/-- Python slicing `s[:k]`: for `k ≥ 0` the first `k` characters (clamped at
the length); for `k < 0`, all but the last `-k` characters. -/
def pySliceTo (s : Str) (k : Int) : Str :=
  if k < 0 then s.take (s.length + k).toNat else s.take k.toNat

/-- Auxiliary scan for Python `str.rfind`: search start positions `i, i-1, …, 0`
for the last occurrence of `pat`. -/
def rfindAux (s pat : Str) : Nat → Int
  | 0 => if pat.isPrefixOf s then 0 else -1
  | i + 1 => if pat.isPrefixOf (s.drop (i + 1)) then ((i + 1 : Nat) : Int)
             else rfindAux s pat i

/-- Python `s.rfind(pat)`: the largest start index of an occurrence of `pat`
in `s`, or `-1` when there is none. -/
def pyRfind (s pat : Str) : Int := rfindAux s pat s.length

/-- The truncation marker appended by `truncate_content`. -/
def marker : Str := "\n\n[Content truncated...]".toList

/-- The source's `last_sentence`: Python `max` of the four `rfind`s, in the
order the source lists them. -/
def lastSentencePos (truncated : Str) : Int :=
  max (max (max (pyRfind truncated ('.' :: ' ' :: []))
                (pyRfind truncated ('.' :: '\n' :: [])))
           (pyRfind truncated ('?' :: ' ' :: [])))
      (pyRfind truncated ('!' :: ' ' :: []))

/-- The breakpoint selection of `truncate_content` applied to the window
`truncated = content[:max_length]`: paragraph cut at `truncated[:last_para]`
when `last_para > 0.8 * max_length`, else sentence cut at
`truncated[:last_sentence + 1]` when `last_sentence > 0.8 * max_length`, else
the raw window. -/
def chooseCut (truncated : Str) (maxLength : Int) : Str :=
  if 5 * pyRfind truncated ('\n' :: '\n' :: []) > 4 * maxLength then
    pySliceTo truncated (pyRfind truncated ('\n' :: '\n' :: []))
  else if 5 * lastSentencePos truncated > 4 * maxLength then
    pySliceTo truncated (lastSentencePos truncated + 1)
  else truncated

/-- `truncate_content` from `lib/converter.py`.  The Python float threshold
`max_length * 0.8` is embedded as the exact rational comparison
`5 * pos > 4 * max_length`. -/
def truncate_content (content : Str) (maxLength : Int) : Str :=
  if content.length ≤ maxLength then content
  else chooseCut (pySliceTo content maxLength) maxLength ++ marker

/-- The tail of the truncation marker after its leading paragraph break. -/
def markerRest : Str := "[Content truncated...]".toList

/-- All start positions of occurrences of `pat` in `s`, in increasing order. -/
def occPositions (s pat : Str) : List Nat :=
  (List.range (s.length + 1)).filter (fun i => pat.isPrefixOf (s.drop i))

/-- The position of the last occurrence of `pat` in `s`, if any (specification
counterpart of Python `rfind`). -/
def lastOcc (s pat : Str) : Option Nat := (occPositions s pat).max?

/-- The sentence-delimiter occurrence positions of the truncation window, in
the order the source lists the delimiters: `". "`, `".\n"`, `"? "`, `"! "`. -/
def sentencePositions (w : Str) : List Nat :=
  occPositions w ('.' :: ' ' :: []) ++ occPositions w ('.' :: '\n' :: []) ++
    occPositions w ('?' :: ' ' :: []) ++ occPositions w ('!' :: ' ' :: [])

/-- Cut chosen per the sentence-boundary rule of the claim: the prefix ending
immediately after the latest sentence delimiter when its position clears the
`0.8 × max_length` threshold, else the whole window. -/
def claimSentenceCut (w : Str) (L : Int) : Str :=
  match (sentencePositions w).max? with
  | some q => if 5 * (q : Int) > 4 * L then w.take (q + 1) else w
  | none => w

/-- The cut described by the claim, in its stated order: paragraph boundary
first, then sentence boundary, then the raw window (`content[:max_length]`). -/
def claimCut (content : Str) (L : Int) : Str :=
  match lastOcc (pySliceTo content L) ('\n' :: '\n' :: []) with
  | some p => if 5 * (p : Int) > 4 * L then (pySliceTo content L).take p
              else claimSentenceCut (pySliceTo content L) L
  | none => claimSentenceCut (pySliceTo content L) L

/-- The configuration in which re-truncation differs, phrased on the
truncation window `w`: no qualifying paragraph break, and the latest sentence
delimiter is a `"? "` or `"! "` whose trailing space is the window's final
character (delimiter position exactly `max_length - 2`), clearing the
threshold. -/
def badCutW (w : Str) (L : Int) : Bool :=
  if 5 * pyRfind w ('\n' :: '\n' :: []) > 4 * L then false
  else
    match (sentencePositions w).max? with
    | some q => decide (5 * (q : Int) > 4 * L) && decide (q + 2 = w.length) &&
                (w[q]? == some '?' || w[q]? == some '!')
    | none => false

/-- The exceptional configuration of `truncate_content` under which a second
truncation changes the result. -/
def badCut (content : Str) (L : Int) : Bool :=
  if (content.length : Int) ≤ L then false else badCutW (pySliceTo content L) L

/-- The ASCII whitespace characters stripped by Python's `str.strip` /
`str.rstrip` (the whitespace that can occur in rendered markdown). -/
def pyIsSpace (c : Char) : Bool :=
  c = ' ' || c = '\t' || c = '\n' || c = '\r' || c = '\x0b' || c = '\x0c'

/-- Python `line.rstrip()`. -/
def pyRstrip (l : Str) : Str := (l.reverse.dropWhile pyIsSpace).reverse

/-- Python `line.lstrip()`. -/
def pyLstrip (l : Str) : Str := l.dropWhile pyIsSpace

/-- Python `line.strip()`. -/
def pyStrip (l : Str) : Str := pyRstrip (pyLstrip l)

/-- Python `markdown.split("\n")`. -/
def pySplitNl : Str → List Str
  | [] => [[]]
  | c :: cs =>
    if c = '\n' then [] :: pySplitNl cs
    else
      match pySplitNl cs with
      | [] => [c :: []]
      | l :: ls => (c :: l) :: ls

/-- Python `"\n".join(lines)`. -/
def joinLines : List Str → Str
  | [] => []
  | [l] => l
  | l :: ls => l ++ '\n' :: joinLines ls

/-- The cleanup loop of `html_to_markdown`: rstrip each line, skip a blank
line that follows a blank line, tracking `prev_empty`. -/
def cleanLines : List Str → Bool → List Str
  | [], _ => []
  | line :: rest, prevEmpty =>
    if (pyStrip (pyRstrip line)).isEmpty && prevEmpty then cleanLines rest prevEmpty
    else pyRstrip line :: cleanLines rest (pyStrip (pyRstrip line)).isEmpty

/-- The whitespace-cleanup stage of `html_to_markdown`
(`lib/converter.py` lines 92–108): split into lines, rstrip and collapse
consecutive blank lines, join, and strip the whole document.  The markdown
engine feeding this stage (markdownify or the fallback) is external; the
cleanup applies to whatever string it produced. -/
def cleanWhitespace (markdown : Str) : Str :=
  pyStrip (joinLines (cleanLines (pySplitNl markdown) false))

/-- A parsed HTML node as produced by the external parser (BeautifulSoup with
`html.parser`): a text node, or an element with its tag name, attribute list
(first occurrence wins on duplicates), and children.  A document is a
forest `List Node`; `soup.find`/`find_all` traverse it in document order
(pre-order). -/
inductive Node where
  | text : String → Node
  | elem : String → List (String × String) → List Node → Node

/-- A tag matcher as used by the source's BeautifulSoup queries: all of them
depend only on the tag name and attributes. -/
abbrev NodePred := String → List (String × String) → Bool

/-- Split into maximal whitespace-free runs (Python `str.split()` with no
arguments), with an accumulator for the current token. -/
def splitWsAux : Str → Str → List Str
  | cur, [] => if cur = [] then [] else [cur.reverse]
  | cur, c :: cs =>
    if c.isWhitespace then
      if cur = [] then splitWsAux [] cs else cur.reverse :: splitWsAux [] cs
    else splitWsAux (c :: cur) cs

/-- Whitespace-separated class tokens of a `class` attribute value (bs4 treats
`class` as a multi-valued attribute, split on whitespace). -/
def classTokens (s : String) : List Str := splitWsAux [] s.toList

/-- ASCII lowercasing of a character list (`re.I` over the ASCII pattern
words used here). -/
def lowerStr (l : Str) : Str := l.map Char.toLower

/-- `needle` occurs as a contiguous substring of `hay`. -/
def listInfixB (needle hay : Str) : Bool :=
  (List.range (hay.length + 1)).any (fun i => needle.isPrefixOf (hay.drop i))

/-- Case-insensitive substring test: `re.compile(pat, re.I).search(hay)` for
the literal lowercase words used in `REMOVE_PATTERNS`. -/
def strContainsCI (hay pat : String) : Bool :=
  listInfixB pat.toList (lowerStr hay.toList)

/-- `soup.find_all(name)` matcher: tag name equality. -/
def isTagP (name : String) : NodePred := fun tag _ => tag == name

/-- `soup.find(attr=value)` matcher for single-valued attributes (`role`,
`id`): exact string equality, only on elements carrying the attribute. -/
def attrEqP (attr val : String) : NodePred := fun _ attrs =>
  match List.lookup attr attrs with
  | some v => v == val
  | none => false

/-- `soup.find(class_=value)` matcher: bs4 matches a string against each
whitespace-separated class token (exact token equality), only on elements
with a `class` attribute. -/
def hasClassTokenP (val : String) : NodePred := fun _ attrs =>
  match List.lookup "class" attrs with
  | some v => (classTokens v).contains val.toList
  | none => false

/-- `soup.find_all(id=regex)` matcher: case-insensitive substring search in
the `id` attribute. -/
def idPatternP (pat : String) : NodePred := fun _ attrs =>
  match List.lookup "id" attrs with
  | some v => strContainsCI v pat
  | none => false

/-- `soup.find_all(class_=regex)` matcher: case-insensitive substring search
in each class token. -/
def classPatternP (pat : String) : NodePred := fun _ attrs =>
  match List.lookup "class" attrs with
  | some v => (classTokens v).any (fun t => listInfixB pat.toList (lowerStr t))
  | none => false

/-- `REMOVE_TAGS` from `lib/converter.py`. -/
def REMOVE_TAGS : List String :=
  ["script", "style", "nav", "header", "footer", "aside",
   "noscript", "iframe", "form", "button", "input"]

/-- `REMOVE_PATTERNS` from `lib/converter.py` (each regex is a literal word). -/
def REMOVE_PATTERNS : List String :=
  ["nav", "menu", "sidebar", "footer", "header", "cookie",
   "banner", "advertisement", "social", "comment", "related"]

mutual
/-- One `find_all` + `decompose` pass: remove every element matching `p`,
together with its whole subtree (text nodes are never matched). -/
def removeAll (p : NodePred) : List Node → List Node
  | [] => []
  | n :: rest => removeAllNode p n ++ removeAll p rest
/-- The contribution of one node after a removal pass: dropped entirely when
the node is an element matching `p`, kept (with filtered children) otherwise. -/
def removeAllNode (p : NodePred) : Node → List Node
  | Node.text s => [Node.text s]
  | Node.elem t a c =>
    if p t a then [] else [Node.elem t a (removeAll p c)]
end

/-- Sequential removal passes, in order. -/
def removeList (ps : List NodePred) (f : List Node) : List Node :=
  ps.foldl (fun acc p => removeAll p acc) f

/-- The removal criteria in the order the source applies them: the tag-name
denylist first, then for each pattern the `id` pass followed by the `class`
pass. -/
def removalPreds : List NodePred :=
  REMOVE_TAGS.map isTagP ++
    REMOVE_PATTERNS.flatMap (fun pat => [idPatternP pat, classPatternP pat])

/-- A node matches some removal criterion. -/
def removablePred : NodePred := fun t a => removalPreds.any (fun p => p t a)

/-- The tag-filter stage of `extract_main_content` (`lib/converter.py`
lines 31–42). -/
def filterDoc (doc : List Node) : List Node := removeList removalPreds doc

mutual
/-- `soup.find(...)`: first matching element in document order (pre-order:
the node itself, then its children, then its siblings). -/
def findFirst (p : NodePred) : List Node → Option Node
  | [] => none
  | n :: rest =>
    match findFirstNode p n with
    | some m => some m
    | none => findFirst p rest
/-- `find` restricted to one node's subtree. -/
def findFirstNode (p : NodePred) : Node → Option Node
  | Node.text _ => none
  | Node.elem t a c =>
    if p t a then some (Node.elem t a c) else findFirst p c
end

/-- The `or`-chain of finds selecting the main container
(`lib/converter.py` lines 44–55).  bs4 `Tag.__bool__` is `True`, so Python's
`or` here is exactly `Option` choice. -/
def chooseContainer (soup : List Node) : Option Node :=
  findFirst (isTagP "main") soup <|>
  findFirst (isTagP "article") soup <|>
  findFirst (attrEqP "role" "main") soup <|>
  findFirst (attrEqP "id" "content") soup <|>
  findFirst (attrEqP "id" "main") soup <|>
  findFirst (attrEqP "id" "main-content") soup <|>
  findFirst (hasClassTokenP "content") soup <|>
  findFirst (hasClassTokenP "post") soup <|>
  findFirst (hasClassTokenP "article") soup

/-- The claim's fixed priority table, as an ordered list of selectors. -/
def selectorTable : List NodePred :=
  [isTagP "main", isTagP "article", attrEqP "role" "main",
   attrEqP "id" "content", attrEqP "id" "main", attrEqP "id" "main-content",
   hasClassTokenP "content", hasClassTokenP "post", hasClassTokenP "article"]

/-- First matching element of the first selector that matches, per the
claim's ordered-table description. -/
def firstMatch (table : List NodePred) (soup : List Node) : Option Node :=
  match table with
  | [] => none
  | p :: ps =>
    match findFirst p soup with
    | some m => some m
    | none => firstMatch ps soup

/-- `extract_main_content` (`lib/converter.py` lines 23–62) at document-tree
level: filter, pick the container, fall back to `<body>`, then to the whole
filtered document.  Parsing the input string and serializing the resulting
container (`str(main)`) are the external parser's halves of the function. -/
def extract_main_content (doc : List Node) : List Node :=
  match chooseContainer (filterDoc doc) with
  | some m => [m]
  | none =>
    match findFirst (isTagP "body") (filterDoc doc) with
    | some b => [b]
    | none => filterDoc doc

mutual
/-- All nodes of a forest in document order (bs4 `descendants`). -/
def allNodes : List Node → List Node
  | [] => []
  | n :: rest => allNodesNode n ++ allNodes rest
/-- A node together with its descendants, in document order. -/
def allNodesNode : Node → List Node
  | Node.text s => [Node.text s]
  | Node.elem t a c => Node.elem t a c :: allNodes c
end

mutual
/-- The text-node contents of a forest, in document order. -/
def textsOf : List Node → List String
  | [] => []
  | n :: rest => textsOfNode n ++ textsOf rest
/-- The text-node contents of one node's subtree. -/
def textsOfNode : Node → List String
  | Node.text s => [s]
  | Node.elem _ _ c => textsOf c
end

mutual
/-- The text-node contents lying outside every removable element's subtree. -/
def goodTexts : List Node → List String
  | [] => []
  | n :: rest => goodTextsNode n ++ goodTexts rest
/-- `goodTexts` of one node. -/
def goodTextsNode : Node → List String
  | Node.text s => [s]
  | Node.elem t a c => if removablePred t a then [] else goodTexts c
end

/-- Python `s.strip()` on `String`s. -/
def pyStripStr (s : String) : String := String.mk (pyStrip s.toList)

mutual
/-- bs4 `element.get_text()`: concatenation of all text-node contents of a
forest, in document order. -/
def getTextRaw : List Node → String
  | [] => ""
  | n :: rest => getTextRawNode n ++ getTextRaw rest
/-- `get_text()` of one node's subtree. -/
def getTextRawNode : Node → String
  | Node.text s => s
  | Node.elem _ _ c => getTextRaw c
end

mutual
/-- bs4 `element.get_text(strip=True)`: concatenation of the stripped
text-node contents, in document order. -/
def getTextStrip : List Node → String
  | [] => ""
  | n :: rest => getTextStripNode n ++ getTextStrip rest
/-- `get_text(strip=True)` of one node's subtree. -/
def getTextStripNode : Node → String
  | Node.text s => pyStripStr s
  | Node.elem _ _ c => getTextStrip c
end

/-- Heading level of `h1`–`h6` tag names (`int(name[1])` in the source). -/
def headingLevel (name : String) : Option Nat :=
  if name = "h1" then some 1
  else if name = "h2" then some 2
  else if name = "h3" then some 3
  else if name = "h4" then some 4
  else if name = "h5" then some 5
  else if name = "h6" then some 6
  else none

/-- `'#' * level`. -/
def hashes (n : Nat) : String := String.mk (List.replicate n '#')

/-- The items `_simple_html_to_markdown` appends for one visited descendant
(`lib/converter.py` lines 111–148): stripped text for string nodes; ATX
headings, paragraph blocks, `[text](href)` links (dropped when the text is
empty or the `href` is missing/empty), list items, fenced code blocks with
verbatim text, and newlines for `<br>`. -/
def processElement : Node → List String
  | Node.text s => if pyStripStr s ≠ "" then [pyStripStr s] else []
  | Node.elem name attrs children =>
    match headingLevel name with
    | some level =>
      if getTextStrip children ≠ "" then
        ["\n" ++ hashes level ++ " " ++ getTextStrip children ++ "\n"]
      else []
    | none =>
      if name = "p" then
        if getTextStrip children ≠ "" then
          ["\n" ++ getTextStrip children ++ "\n"]
        else []
      else if name = "a" then
        if getTextStrip children ≠ "" ∧ (List.lookup "href" attrs).getD "" ≠ "" then
          ["[" ++ getTextStrip children ++ "](" ++
            (List.lookup "href" attrs).getD "" ++ ")"]
        else []
      else if name = "li" then
        if getTextStrip children ≠ "" then ["- " ++ getTextStrip children]
        else []
      else if name = "pre" ∨ name = "code" then
        if getTextRaw children ≠ "" then
          ["\n```\n" ++ getTextRaw children ++ "\n```\n"]
        else []
      else if name = "br" then ["\n"]
      else []

/-- `_simple_html_to_markdown`: visit every descendant in document order and
join the produced items with newlines. -/
def simple_html_to_markdown (soup : List Node) : String :=
  String.intercalate "\n" (((allNodes soup).map processElement).flatten)

/-- Modelled from the spec: the preferred renderer path uses the external
`markdownify` library, which is not part of this repository.  Spec §4.3
fixes the observable anchor contract both paths must satisfy — "Anchors
render as `[link text](resolved href)`; anchors with empty text or missing
`href` are dropped" — which this definition transcribes. -/
def markdownify_convert_a (text href : String) : Option String :=
  if text = "" ∨ href = "" then none
  else some ("[" ++ text ++ "](" ++ href ++ ")")

/-- A two-character pattern is a prefix of a list iff its characters sit at
positions 0 and 1. -/
theorem prefix_pair_iff (a b : Char) (m : Str) :
    ([a, b] <+: m) ↔ m[0]? = some a ∧ m[1]? = some b := by
  cases m with
  | nil => simp
  | cons x t =>
    cases t with
    | nil => simp [List.cons_prefix_cons]
    | cons y u => simp [List.cons_prefix_cons, eq_comm]

/-- Occurrence of a two-character pattern at position `j`, phrased by indexing. -/
theorem occ_pair_iff (a b : Char) (s : Str) (j : Nat) :
    ([a, b] <+: s.drop j) ↔ s[j]? = some a ∧ s[j + 1]? = some b := by
  rw [prefix_pair_iff]
  simp [List.getElem?_drop]

theorem not_occ_of_gt_length {pat : Str} (hpat : pat ≠ []) {s : Str} {j : Nat}
    (h : s.length ≤ j) : ¬ pat <+: s.drop j := by
  rw [List.drop_eq_nil_iff.mpr h, List.prefix_nil]
  exact hpat

theorem occ_lt_length {pat : Str} (hpat : pat ≠ []) {s : Str} {j : Nat}
    (h : pat <+: s.drop j) : j < s.length := by
  by_contra hj
  exact not_occ_of_gt_length hpat (by omega) h

theorem rfindAux_eq_of {s pat : Str} {j : Nat} :
    ∀ i : Nat, j ≤ i → pat <+: s.drop j →
      (∀ k, j < k → k ≤ i → ¬ pat <+: s.drop k) →
      rfindAux s pat i = (j : Int)
  | 0, hji, hocc, _ => by
    interval_cases j
    simp only [rfindAux, List.drop_zero] at *
    rw [if_pos (List.isPrefixOf_iff_prefix.mpr hocc)]
    simp
  | i + 1, hji, hocc, hmax => by
    rcases Nat.eq_or_lt_of_le hji with hj | hj
    · simp only [rfindAux, hj]
      rw [if_pos (List.isPrefixOf_iff_prefix.mpr (hj ▸ hocc))]
    · have hni : ¬ pat <+: s.drop (i + 1) := hmax (i + 1) hj (le_refl _)
      simp only [rfindAux]
      rw [if_neg (by simpa using fun hc => hni (List.isPrefixOf_iff_prefix.mp hc))]
      exact rfindAux_eq_of i (by omega) hocc (fun k hk1 hk2 => hmax k hk1 (by omega))

theorem rfindAux_eq_neg_iff {s pat : Str} :
    ∀ i : Nat, rfindAux s pat i = -1 ↔ ∀ j, j ≤ i → ¬ pat <+: s.drop j
  | 0 => by
    simp only [rfindAux]
    split
    · rename_i h
      simp only [List.isPrefixOf_iff_prefix] at h
      constructor
      · intro hc; exact absurd hc (by decide)
      · intro hall; exact absurd (hall 0 (le_refl _) (by simpa using h)) not_false
    · rename_i h
      simp only [List.isPrefixOf_iff_prefix] at h
      constructor
      · intro _ j hj
        interval_cases j
        simpa using h
      · intro _; rfl
  | i + 1 => by
    simp only [rfindAux]
    split
    · rename_i h
      simp only [List.isPrefixOf_iff_prefix] at h
      constructor
      · intro hc; omega
      · intro hall; exact absurd (hall (i + 1) (le_refl _) h) not_false
    · rename_i h
      simp only [List.isPrefixOf_iff_prefix] at h
      rw [rfindAux_eq_neg_iff i]
      constructor
      · intro hall j hj
        rcases Nat.eq_or_lt_of_le hj with hj' | hj'
        · simpa [hj'] using h
        · exact hall j (by omega)
      · intro hall j hj
        exact hall j (by omega)

theorem rfindAux_spec {s pat : Str} :
    ∀ i : Nat, rfindAux s pat i = -1 ∨
      ∃ j : Nat, j ≤ i ∧ rfindAux s pat i = (j : Int) ∧ pat <+: s.drop j ∧
        ∀ k, j < k → k ≤ i → ¬ pat <+: s.drop k
  | 0 => by
    by_cases h : pat <+: s.drop 0
    · right
      exact ⟨0, le_refl _, rfindAux_eq_of 0 (le_refl _) h (by omega), h, by omega⟩
    · left
      rw [rfindAux_eq_neg_iff]
      intro j hj
      interval_cases j
      exact h
  | i + 1 => by
    by_cases h : pat <+: s.drop (i + 1)
    · right
      refine ⟨i + 1, le_refl _, ?_, h, by omega⟩
      exact rfindAux_eq_of (i + 1) (le_refl _) h (by omega)
    · rcases @rfindAux_spec s pat i with hneg | ⟨j, hji, heq, hocc, hmax⟩
      · left
        rw [rfindAux_eq_neg_iff] at hneg ⊢
        intro j hj
        rcases Nat.eq_or_lt_of_le hj with hj' | hj'
        · exact hj' ▸ h
        · exact hneg j (by omega)
      · right
        refine ⟨j, by omega, ?_, hocc, ?_⟩
        · exact rfindAux_eq_of (i + 1) (by omega) hocc (fun k hk1 hk2 => by
            rcases Nat.eq_or_lt_of_le hk2 with hk' | hk'
            · exact hk' ▸ h
            · exact hmax k hk1 (by omega))
        · intro k hk1 hk2
          rcases Nat.eq_or_lt_of_le hk2 with hk' | hk'
          · exact hk' ▸ h
          · exact hmax k hk1 (by omega)

theorem pyRfind_eq_of {s pat : Str} {j : Nat} (hpat : pat ≠ [])
    (hocc : pat <+: s.drop j) (hmax : ∀ k, j < k → ¬ pat <+: s.drop k) :
    pyRfind s pat = (j : Int) :=
  rfindAux_eq_of s.length (le_of_lt (occ_lt_length hpat hocc)) hocc
    (fun k hk1 _ => hmax k hk1)

theorem pyRfind_neg_iff {s pat : Str} (hpat : pat ≠ []) :
    pyRfind s pat = -1 ↔ ∀ j, ¬ pat <+: s.drop j := by
  rw [pyRfind, rfindAux_eq_neg_iff]
  constructor
  · intro hall j
    by_cases hj : j ≤ s.length
    · exact hall j hj
    · exact not_occ_of_gt_length hpat (by omega)
  · intro hall j _
    exact hall j

theorem pyRfind_cases {s pat : Str} (hpat : pat ≠ []) :
    pyRfind s pat = -1 ∨
      ∃ j : Nat, pyRfind s pat = (j : Int) ∧ pat <+: s.drop j ∧
        ∀ k, j < k → ¬ pat <+: s.drop k := by
  rcases @rfindAux_spec s pat s.length with h | ⟨j, hji, heq, hocc, hmax⟩
  · exact Or.inl h
  · refine Or.inr ⟨j, heq, hocc, fun k hk1 => ?_⟩
    by_cases hk : k ≤ s.length
    · exact hmax k hk1 hk
    · exact not_occ_of_gt_length hpat (by omega)

theorem marker_cons : marker = '\n' :: '\n' :: markerRest := by decide

theorem markerRest_no_newline : '\n' ∉ markerRest := by decide

theorem marker_length : marker.length = 24 := by decide

theorem mem_occPositions {s pat : Str} (hpat : pat ≠ []) {i : Nat} :
    i ∈ occPositions s pat ↔ pat <+: s.drop i := by
  simp only [occPositions, List.mem_filter, List.mem_range,
    List.isPrefixOf_iff_prefix]
  constructor
  · exact And.right
  · intro h
    exact ⟨by have := occ_lt_length hpat h; omega, h⟩

theorem lastOcc_eq_none_iff {s pat : Str} (hpat : pat ≠ []) :
    lastOcc s pat = none ↔ ∀ j, ¬ pat <+: s.drop j := by
  rw [lastOcc, List.max?_eq_none_iff, List.eq_nil_iff_forall_not_mem]
  constructor
  · intro h j hj
    exact h j ((mem_occPositions hpat).mpr hj)
  · intro h i hi
    exact h i ((mem_occPositions hpat).mp hi)

theorem lastOcc_eq_some_iff {s pat : Str} (hpat : pat ≠ []) {j : Nat} :
    lastOcc s pat = some j ↔
      (pat <+: s.drop j ∧ ∀ k, j < k → ¬ pat <+: s.drop k) := by
  rw [lastOcc, List.max?_eq_some_iff']
  constructor
  · intro ⟨hmem, hub⟩
    refine ⟨(mem_occPositions hpat).mp hmem, fun k hk hocc => ?_⟩
    have := hub k ((mem_occPositions hpat).mpr hocc)
    omega
  · intro ⟨hocc, hmax⟩
    refine ⟨(mem_occPositions hpat).mpr hocc, fun b hb => ?_⟩
    by_contra hb'
    exact hmax b (by omega) ((mem_occPositions hpat).mp hb)

/-- Python `rfind` agrees with the specification-side `lastOcc`, with `-1`
encoding absence. -/
theorem pyRfind_eq_lastOcc {s pat : Str} (hpat : pat ≠ []) :
    pyRfind s pat = (match lastOcc s pat with
                     | none => (-1 : Int)
                     | some j => (j : Int)) := by
  rcases pyRfind_cases (s := s) hpat with h | ⟨j, heq, hocc, hmax⟩
  · rw [h, ((lastOcc_eq_none_iff hpat).mpr ((pyRfind_neg_iff hpat).mp h))]
  · rw [heq, (lastOcc_eq_some_iff hpat).mpr ⟨hocc, hmax⟩]

theorem pySliceTo_ofNat (s : Str) (j : Nat) : pySliceTo s (j : Int) = s.take j := by
  simp [pySliceTo]

theorem pyRfind_le_of_ub {w pat : Str} (hpat : pat ≠ []) {q : Nat}
    (hub : ∀ j, pat <+: w.drop j → j ≤ q) : pyRfind w pat ≤ (q : Int) := by
  rcases pyRfind_cases (s := w) hpat with h | ⟨j, heq, hocc, _⟩
  · rw [h]; omega
  · rw [heq]
    have := hub j hocc
    omega

theorem pyRfind_eq_of_occ_ub {w pat : Str} (hpat : pat ≠ []) {q : Nat}
    (hocc : pat <+: w.drop q) (hub : ∀ j, pat <+: w.drop j → j ≤ q) :
    pyRfind w pat = (q : Int) :=
  pyRfind_eq_of hpat hocc (fun k hk hc => absurd (hub k hc) (by omega))

/-- The source's `last_sentence` (Python `max` of the four `rfind`s) equals the
latest sentence-delimiter position of the window, with `-1` encoding absence. -/
theorem lastSentence_eq (w : Str) :
    lastSentencePos w =
      (match (sentencePositions w).max? with
       | none => (-1 : Int)
       | some q => (q : Int)) := by
  unfold lastSentencePos
  rcases hmax : (sentencePositions w).max? with _ | q
  · rw [List.max?_eq_none_iff] at hmax
    simp only [sentencePositions, List.append_eq_nil] at hmax
    obtain ⟨⟨⟨h1, h2⟩, h3⟩, h4⟩ := hmax
    have e1 : pyRfind w ('.' :: ' ' :: []) = -1 := by
      rw [pyRfind_neg_iff (by simp)]
      intro j hj
      exact absurd ((mem_occPositions (by simp)).mpr hj) (by simp [h1])
    have e2 : pyRfind w ('.' :: '\n' :: []) = -1 := by
      rw [pyRfind_neg_iff (by simp)]
      intro j hj
      exact absurd ((mem_occPositions (by simp)).mpr hj) (by simp [h2])
    have e3 : pyRfind w ('?' :: ' ' :: []) = -1 := by
      rw [pyRfind_neg_iff (by simp)]
      intro j hj
      exact absurd ((mem_occPositions (by simp)).mpr hj) (by simp [h3])
    have e4 : pyRfind w ('!' :: ' ' :: []) = -1 := by
      rw [pyRfind_neg_iff (by simp)]
      intro j hj
      exact absurd ((mem_occPositions (by simp)).mpr hj) (by simp [h4])
    rw [e1, e2, e3, e4]
    rfl
  · rw [List.max?_eq_some_iff'] at hmax
    obtain ⟨hmem, hub⟩ := hmax
    have hub1 : ∀ j, ('.' :: ' ' :: []) <+: w.drop j → j ≤ q := by
      intro j hj
      refine hub j ?_
      simp only [sentencePositions, List.mem_append]
      exact Or.inl (Or.inl (Or.inl ((mem_occPositions (by simp)).mpr hj)))
    have hub2 : ∀ j, ('.' :: '\n' :: []) <+: w.drop j → j ≤ q := by
      intro j hj
      refine hub j ?_
      simp only [sentencePositions, List.mem_append]
      exact Or.inl (Or.inl (Or.inr ((mem_occPositions (by simp)).mpr hj)))
    have hub3 : ∀ j, ('?' :: ' ' :: []) <+: w.drop j → j ≤ q := by
      intro j hj
      refine hub j ?_
      simp only [sentencePositions, List.mem_append]
      exact Or.inl (Or.inr ((mem_occPositions (by simp)).mpr hj))
    have hub4 : ∀ j, ('!' :: ' ' :: []) <+: w.drop j → j ≤ q := by
      intro j hj
      refine hub j ?_
      simp only [sentencePositions, List.mem_append]
      exact Or.inr ((mem_occPositions (by simp)).mpr hj)
    have hle1 := pyRfind_le_of_ub (w := w) (by simp) hub1
    have hle2 := pyRfind_le_of_ub (w := w) (by simp) hub2
    have hle3 := pyRfind_le_of_ub (w := w) (by simp) hub3
    have hle4 := pyRfind_le_of_ub (w := w) (by simp) hub4
    have hup : max (max (max (pyRfind w ('.' :: ' ' :: []))
        (pyRfind w ('.' :: '\n' :: []))) (pyRfind w ('?' :: ' ' :: [])))
        (pyRfind w ('!' :: ' ' :: [])) ≤ (q : Int) :=
      max_le (max_le (max_le hle1 hle2) hle3) hle4
    have hin1 : pyRfind w ('.' :: ' ' :: []) ≤ max (max (max
        (pyRfind w ('.' :: ' ' :: [])) (pyRfind w ('.' :: '\n' :: [])))
        (pyRfind w ('?' :: ' ' :: []))) (pyRfind w ('!' :: ' ' :: [])) :=
      le_trans (le_max_left _ _) (le_trans (le_max_left _ _) (le_max_left _ _))
    have hin2 : pyRfind w ('.' :: '\n' :: []) ≤ max (max (max
        (pyRfind w ('.' :: ' ' :: [])) (pyRfind w ('.' :: '\n' :: [])))
        (pyRfind w ('?' :: ' ' :: []))) (pyRfind w ('!' :: ' ' :: [])) :=
      le_trans (le_max_right _ _) (le_trans (le_max_left _ _) (le_max_left _ _))
    have hin3 : pyRfind w ('?' :: ' ' :: []) ≤ max (max (max
        (pyRfind w ('.' :: ' ' :: [])) (pyRfind w ('.' :: '\n' :: [])))
        (pyRfind w ('?' :: ' ' :: []))) (pyRfind w ('!' :: ' ' :: [])) :=
      le_trans (le_max_right _ _) (le_max_left _ _)
    have hin4 : pyRfind w ('!' :: ' ' :: []) ≤ max (max (max
        (pyRfind w ('.' :: ' ' :: [])) (pyRfind w ('.' :: '\n' :: [])))
        (pyRfind w ('?' :: ' ' :: []))) (pyRfind w ('!' :: ' ' :: [])) :=
      le_max_right _ _
    show _ = (q : Int)
    simp only [sentencePositions, List.mem_append] at hmem
    rcases hmem with ((hm | hm) | hm) | hm
    · have heq := @pyRfind_eq_of_occ_ub w ('.' :: ' ' :: [])
        (by simp) _ ((mem_occPositions (by simp)).mp hm) hub1
      exact le_antisymm hup (le_trans (le_of_eq heq.symm) hin1)
    · have heq := @pyRfind_eq_of_occ_ub w ('.' :: '\n' :: [])
        (by simp) _ ((mem_occPositions (by simp)).mp hm) hub2
      exact le_antisymm hup (le_trans (le_of_eq heq.symm) hin2)
    · have heq := @pyRfind_eq_of_occ_ub w ('?' :: ' ' :: [])
        (by simp) _ ((mem_occPositions (by simp)).mp hm) hub3
      exact le_antisymm hup (le_trans (le_of_eq heq.symm) hin3)
    · have heq := @pyRfind_eq_of_occ_ub w ('!' :: ' ' :: [])
        (by simp) _ ((mem_occPositions (by simp)).mp hm) hub4
      exact le_antisymm hup (le_trans (le_of_eq heq.symm) hin4)

theorem lastSentence_eq_none {w : Str}
    (hq : (sentencePositions w).max? = none) : lastSentencePos w = -1 := by
  rw [lastSentence_eq, hq]

theorem lastSentence_eq_some {w : Str} {q : Nat}
    (hq : (sentencePositions w).max? = some q) : lastSentencePos w = (q : Int) := by
  rw [lastSentence_eq, hq]

theorem claimSentenceCut_none {w : Str} {L : Int}
    (hq : (sentencePositions w).max? = none) : claimSentenceCut w L = w := by
  unfold claimSentenceCut
  rw [hq]

theorem claimSentenceCut_some {w : Str} {L : Int} {q : Nat}
    (hq : (sentencePositions w).max? = some q) :
    claimSentenceCut w L = (if 5 * (q : Int) > 4 * L then w.take (q + 1) else w) := by
  unfold claimSentenceCut
  rw [hq]

theorem claimCut_none {content : Str} {L : Int}
    (hp : lastOcc (pySliceTo content L) ('\n' :: '\n' :: []) = none) :
    claimCut content L = claimSentenceCut (pySliceTo content L) L := by
  unfold claimCut
  rw [hp]

theorem claimCut_some {content : Str} {L : Int} {p : Nat}
    (hp : lastOcc (pySliceTo content L) ('\n' :: '\n' :: []) = some p) :
    claimCut content L =
      (if 5 * (p : Int) > 4 * L then (pySliceTo content L).take p
       else claimSentenceCut (pySliceTo content L) L) := by
  unfold claimCut
  rw [hp]

/-- The source's sentence-boundary branch computes the claim's sentence cut
(for non-negative limits, where the `-1` absence sentinel cannot clear the
threshold). -/
theorem sentenceBranch_eq (w : Str) (L : Int) (hL : 0 ≤ L) :
    (if 5 * lastSentencePos w > 4 * L then
        pySliceTo w (lastSentencePos w + 1)
      else w) = claimSentenceCut w L := by
  rcases hq : (sentencePositions w).max? with _ | q
  · rw [lastSentence_eq_none hq, claimSentenceCut_none hq]
    exact if_neg (by omega)
  · rw [lastSentence_eq_some hq, claimSentenceCut_some hq]
    by_cases hcond : 5 * (q : Int) > 4 * L
    · rw [if_pos hcond, if_pos hcond]
      have hq1 : ((q : Int) + 1) = ((q + 1 : Nat) : Int) := by push_cast; ring
      rw [hq1, pySliceTo_ofNat]
    · rw [if_neg hcond, if_neg hcond]

theorem occ_add_two_le {a b : Char} {w : Str} {j : Nat}
    (h : [a, b] <+: w.drop j) : j + 2 ≤ w.length := by
  have h1 := h.length_le
  have h2 : j < w.length := occ_lt_length (by simp) h
  simp only [List.length_drop, List.length_cons] at h1
  omega

/-- Every occurrence position is bounded when the source's threshold test on
`rfind` fails. -/
theorem occ_bound_of_cond_false {w pat : Str} (hpat : pat ≠ []) {L : Int}
    (hc : ¬ 5 * pyRfind w pat > 4 * L) {j : Nat} (hocc : pat <+: w.drop j) :
    5 * (j : Int) ≤ 4 * L := by
  rcases pyRfind_cases (s := w) hpat with h | ⟨j0, heq, _, hmax0⟩
  · exact absurd hocc ((pyRfind_neg_iff hpat).mp h j)
  · have hj : j ≤ j0 := by
      by_contra hj
      exact hmax0 j (by omega) hocc
    rw [heq] at hc
    omega

/-- The threshold test fails when every occurrence position is bounded. -/
theorem cond_false_of_occ_bound {w pat : Str} (hpat : pat ≠ []) {L : Int}
    (hL : 0 ≤ L) (hall : ∀ j, pat <+: w.drop j → 5 * (j : Int) ≤ 4 * L) :
    ¬ 5 * pyRfind w pat > 4 * L := by
  rcases pyRfind_cases (s := w) hpat with h | ⟨j0, heq, hocc0, _⟩
  · rw [h]; omega
  · rw [heq]
    have := hall j0 hocc0
    omega

theorem marker_getElem?_zero : marker[0]? = some '\n' := by decide

theorem marker_getElem?_one : marker[1]? = some '\n' := by decide

/-- The truncation marker contains no newline beyond its two leading ones. -/
theorem marker_newline_le_one {i : Nat} (h : marker[i]? = some '\n') : i ≤ 1 := by
  by_contra hi
  have h2 : marker[i]? = markerRest[i - 2]? := by
    rw [marker_cons]
    rcases i with _ | i
    · omega
    rcases i with _ | i
    · omega
    simp
  rw [h2] at h
  exact markerRest_no_newline (List.getElem?_mem h)

theorem marker_take_newline_le_one {m i : Nat}
    (h : (marker.take m)[i]? = some '\n') : i ≤ 1 := by
  rw [List.getElem?_take] at h
  by_cases him : i < m
  · rw [if_pos him] at h
    exact marker_newline_le_one h
  · rw [if_neg him] at h
    exact absurd h (by simp)

theorem truncate_of_gt (content : Str) (L : Int)
    (h : ¬ (content.length : Int) ≤ L) :
    truncate_content content L = chooseCut (pySliceTo content L) L ++ marker := by
  unfold truncate_content
  rw [if_neg h]

theorem truncate_noop_of_le (content : Str) (L : Int)
    (h : (content.length : Int) ≤ L) : truncate_content content L = content := by
  unfold truncate_content
  rw [if_pos h]

theorem pySliceTo_nonneg (s : Str) (L : Int) (hL : 0 ≤ L) :
    pySliceTo s L = s.take L.toNat := by
  unfold pySliceTo
  rw [if_neg (by omega)]

/-- A sentence position is an occurrence of one of the four delimiters: it
leaves two characters of room and carries `'.'`, `'?'` or `'!'`. -/
theorem mem_sentencePositions_occ {w : Str} {q : Nat}
    (h : q ∈ sentencePositions w) :
    q + 2 ≤ w.length ∧
      (w[q]? = some '.' ∨ w[q]? = some '?' ∨ w[q]? = some '!') := by
  simp only [sentencePositions, List.mem_append] at h
  rcases h with ((hm | hm) | hm) | hm
  · have hocc := (mem_occPositions (by simp)).mp hm
    exact ⟨occ_add_two_le hocc, Or.inl ((occ_pair_iff _ _ _ _).mp hocc).1⟩
  · have hocc := (mem_occPositions (by simp)).mp hm
    exact ⟨occ_add_two_le hocc, Or.inl ((occ_pair_iff _ _ _ _).mp hocc).1⟩
  · have hocc := (mem_occPositions (by simp)).mp hm
    exact ⟨occ_add_two_le hocc, Or.inr (Or.inl ((occ_pair_iff _ _ _ _).mp hocc).1)⟩
  · have hocc := (mem_occPositions (by simp)).mp hm
    exact ⟨occ_add_two_le hocc, Or.inr (Or.inr ((occ_pair_iff _ _ _ _).mp hocc).1)⟩

/-- Re-truncating a window-plus-marker when neither boundary qualified: the
second pass recomputes the same failing conditions and hard-cuts at the same
place. -/
theorem truncate_whole_cut (W : Str) (L : Int) (hL : 0 ≤ L)
    (hlenW : (W.length : Int) = L)
    (hpara : ¬ 5 * pyRfind W ('\n' :: '\n' :: []) > 4 * L)
    (hsent : ¬ 5 * lastSentencePos W > 4 * L) :
    truncate_content (W ++ marker) L = W ++ marker := by
  have hlen1 : (W ++ marker).length = W.length + 24 := by
    rw [List.length_append, marker_length]
  rw [truncate_of_gt _ _ (by rw [hlen1]; push_cast; omega)]
  have hwin : pySliceTo (W ++ marker) L = W := by
    rw [pySliceTo_nonneg _ _ hL]
    rw [show L.toNat = W.length by omega, List.take_left]
  rw [hwin]
  unfold chooseCut
  rw [if_neg hpara, if_neg hsent]

/-- Re-truncating a cut-plus-marker when the cut sits at a qualifying
position `c` with room for the marker's leading `"\n\n"` inside the window:
the marker's own paragraph break is found at `c` and the second pass cuts in
the same place. -/
theorem truncate_marker_cut (W : Str) (c : Nat) (L : Int) (hL : 0 ≤ L)
    (hlenW : (W.length : Int) = L) (hc : (c : Int) + 2 ≤ L)
    (hcn : (c : Int) + 24 > L) (hcond : 5 * (c : Int) > 4 * L) :
    truncate_content (W.take c ++ marker) L = W.take c ++ marker := by
  have hcW : c ≤ W.length := by omega
  have hlenC : (W.take c).length = c := by rw [List.length_take]; omega
  have hlen1 : (W.take c ++ marker).length = c + 24 := by
    rw [List.length_append, marker_length, hlenC]
  rw [truncate_of_gt _ _ (by rw [hlen1]; push_cast; omega)]
  have hwin : pySliceTo (W.take c ++ marker) L =
      W.take c ++ marker.take (L.toNat - c) := by
    rw [pySliceTo_nonneg _ _ hL, List.take_append_eq_append_take, hlenC]
    congr 1
    rw [List.take_take, min_eq_right (by omega)]
  rw [hwin]
  have hdrop : (W.take c ++ marker.take (L.toNat - c)).drop c =
      marker.take (L.toNat - c) := by
    have hgen := List.drop_left (W.take c) (marker.take (L.toNat - c))
    rwa [hlenC] at hgen
  have hocc : ('\n' :: '\n' :: []) <+:
      (W.take c ++ marker.take (L.toNat - c)).drop c := by
    rw [hdrop, prefix_pair_iff]
    constructor
    · rw [List.getElem?_take, if_pos (by omega)]
      exact marker_getElem?_zero
    · rw [List.getElem?_take, if_pos (by omega)]
      exact marker_getElem?_one
  have hidx : ∀ i, c ≤ i → (W.take c ++ marker.take (L.toNat - c))[i]? =
      (marker.take (L.toNat - c))[i - c]? := by
    intro i hi
    rw [List.getElem?_append, hlenC, if_neg (by omega)]
  have hmax : ∀ k, c < k →
      ¬ ('\n' :: '\n' :: []) <+: (W.take c ++ marker.take (L.toNat - c)).drop k := by
    intro k hk hcontra
    rw [occ_pair_iff] at hcontra
    obtain ⟨h1, h2⟩ := hcontra
    rw [hidx k (by omega)] at h1
    rw [hidx (k + 1) (by omega)] at h2
    have hk1 := marker_take_newline_le_one h1
    have hk2 := marker_take_newline_le_one h2
    omega
  have hrf : pyRfind (W.take c ++ marker.take (L.toNat - c))
      ('\n' :: '\n' :: []) = (c : Int) := pyRfind_eq_of (by simp) hocc hmax
  unfold chooseCut
  rw [hrf, if_pos hcond, pySliceTo_ofNat]
  have htake : (W.take c ++ marker.take (L.toNat - c)).take c = W.take c := by
    have hgen := List.take_left (W.take c) (marker.take (L.toNat - c))
    rwa [hlenC] at hgen
  rw [htake]

/-- Re-truncating a sentence cut whose `". "` or `".\n"` delimiter sat at the
second-to-last window position: the retained `'.'` pairs with the marker's
first `'\n'` to form a `".\n"` delimiter at the same position, so the second
pass cuts in the same place. -/
theorem truncate_dot_nl_cut (W : Str) (L : Int)
    (hlenW : (W.length : Int) = L)
    (_hn2 : 2 ≤ W.length)
    (hdot : W[W.length - 2]? = some '.')
    (hpara : ¬ 5 * pyRfind W ('\n' :: '\n' :: []) > 4 * L)
    (hcond : 5 * ((W.length : Int) - 2) > 4 * L) :
    truncate_content (W.take (W.length - 1) ++ marker) L =
      W.take (W.length - 1) ++ marker := by
  have hlenC : (W.take (W.length - 1)).length = W.length - 1 := by
    rw [List.length_take]
    omega
  have hlen1 : (W.take (W.length - 1) ++ marker).length = (W.length - 1) + 24 := by
    rw [List.length_append, marker_length, hlenC]
  rw [truncate_of_gt _ _ (by rw [hlen1]; push_cast; omega)]
  have hwin : pySliceTo (W.take (W.length - 1) ++ marker) L =
      W.take (W.length - 1) ++ marker.take 1 := by
    rw [pySliceTo_nonneg _ _ (by omega), List.take_append_eq_append_take, hlenC]
    congr 1
    · rw [List.take_take, min_eq_right (by omega)]
    · congr 1
      omega
  have hm1 : marker.take 1 = ['\n'] := by decide
  rw [hwin, hm1]
  have hlenW' : (W.take (W.length - 1) ++ ['\n']).length = W.length := by
    rw [List.length_append, hlenC, List.length_singleton]
    omega
  have hWi : ∀ i, i < W.length - 1 →
      (W.take (W.length - 1) ++ ['\n'])[i]? = W[i]? := by
    intro i hi
    rw [List.getElem?_append, hlenC, if_pos hi, List.getElem?_take, if_pos hi]
  have hlast : (W.take (W.length - 1) ++ ['\n'])[W.length - 1]? = some '\n' := by
    rw [List.getElem?_append, hlenC, if_neg (by omega), Nat.sub_self]
    rfl
  have hnone : ∀ i, W.length ≤ i →
      (W.take (W.length - 1) ++ ['\n'])[i]? = none := by
    intro i hi
    apply List.getElem?_eq_none
    rw [hlenW']
    omega
  have hpara' : ¬ 5 * pyRfind (W.take (W.length - 1) ++ ['\n'])
      ('\n' :: '\n' :: []) > 4 * L := by
    apply cond_false_of_occ_bound (by simp) (by omega)
    intro j hocc
    rw [occ_pair_iff] at hocc
    obtain ⟨h1, h2⟩ := hocc
    have hj1 : j + 1 < W.length := by
      by_contra hj
      rw [hnone (j + 1) (by omega)] at h2
      exact absurd h2 (by simp)
    by_cases hj2 : j + 1 < W.length - 1
    · rw [hWi j (by omega)] at h1
      rw [hWi (j + 1) (by omega)] at h2
      exact occ_bound_of_cond_false (by simp) hpara
        ((occ_pair_iff _ _ _ _).mpr ⟨h1, h2⟩)
    · have hj3 : j = W.length - 2 := by omega
      rw [hWi j (by omega), hj3, hdot] at h1
      exact absurd h1 (by simp)
  have hq : (sentencePositions (W.take (W.length - 1) ++ ['\n'])).max? =
      some (W.length - 2) := by
    rw [List.max?_eq_some_iff']
    constructor
    · have hocc : ('.' :: '\n' :: []) <+:
          (W.take (W.length - 1) ++ ['\n']).drop (W.length - 2) := by
        rw [occ_pair_iff]
        constructor
        · rw [hWi _ (by omega)]
          exact hdot
        · rw [show W.length - 2 + 1 = W.length - 1 by omega]
          exact hlast
      simp only [sentencePositions, List.mem_append]
      exact Or.inl (Or.inl (Or.inr ((mem_occPositions (by simp)).mpr hocc)))
    · intro b hb
      have hb2 := (mem_sentencePositions_occ hb).1
      rw [hlenW'] at hb2
      omega
  unfold chooseCut
  rw [if_neg hpara', lastSentence_eq_some hq, if_pos (by omega)]
  rw [show ((W.length - 2 : Nat) : Int) + 1 = ((W.length - 1 : Nat) : Int) by omega,
    pySliceTo_ofNat]
  have htake : (W.take (W.length - 1) ++ ['\n']).take (W.length - 1) =
      W.take (W.length - 1) := by
    have hgen := List.take_left (W.take (W.length - 1)) (['\n'] : Str)
    rwa [hlenC] at hgen
  rw [htake]

/-- Idempotence of re-truncation for a window whose paragraph test failed,
outside the exceptional configuration. -/
theorem truncate_window_idem_sentence (W : Str) (L : Int) (hL : 0 ≤ L)
    (hlenW : (W.length : Int) = L) (hbadW : badCutW W L = false)
    (hpara : ¬ 5 * pyRfind W ('\n' :: '\n' :: []) > 4 * L) :
    truncate_content ((if 5 * lastSentencePos W > 4 * L then
        pySliceTo W (lastSentencePos W + 1) else W) ++ marker) L =
      (if 5 * lastSentencePos W > 4 * L then
        pySliceTo W (lastSentencePos W + 1) else W) ++ marker := by
  rcases hq : (sentencePositions W).max? with _ | q
  · have hsent : ¬ 5 * lastSentencePos W > 4 * L := by
      rw [lastSentence_eq_none hq]
      omega
    rw [if_neg hsent]
    exact truncate_whole_cut W L hL hlenW hpara hsent
  · by_cases hcondq : 5 * (q : Int) > 4 * L
    · have hsq := lastSentence_eq_some hq
      rw [hsq, if_pos hcondq,
        show ((q : Int) + 1) = ((q + 1 : Nat) : Int) by omega, pySliceTo_ofNat]
      have hqmem : q ∈ sentencePositions W := (List.max?_eq_some_iff'.mp hq).1
      obtain ⟨hq2, hchar⟩ := mem_sentencePositions_occ hqmem
      by_cases hsmall : (((W.take (q + 1) ++ marker).length : Int) ≤ L)
      · exact truncate_noop_of_le _ _ hsmall
      · have hlen1 : (W.take (q + 1) ++ marker).length = (q + 1) + 24 := by
          rw [List.length_append, marker_length, List.length_take,
            min_eq_left (by omega)]
        rw [hlen1] at hsmall
        by_cases hq3 : q + 2 < W.length
        · exact truncate_marker_cut W (q + 1) L hL hlenW (by omega)
            (by push_cast at hsmall ⊢; omega) (by omega)
        · have hqeq : q + 2 = W.length := by omega
          rcases hchar with hc | hc | hc
          · rw [show q + 1 = W.length - 1 by omega]
            exact truncate_dot_nl_cut W L hlenW (by omega)
              (by rw [show W.length - 2 = q by omega]; exact hc) hpara
              (by omega)
          · exfalso
            have hbt : badCutW W L = true := by
              rw [badCutW, if_neg hpara, hq]
              show (decide (5 * (q : Int) > 4 * L) && decide (q + 2 = W.length) &&
                (W[q]? == some '?' || W[q]? == some '!')) = true
              rw [hc]
              simp [hcondq, hqeq]
            rw [hbadW] at hbt
            exact Bool.false_ne_true hbt
          · exfalso
            have hbt : badCutW W L = true := by
              rw [badCutW, if_neg hpara, hq]
              show (decide (5 * (q : Int) > 4 * L) && decide (q + 2 = W.length) &&
                (W[q]? == some '?' || W[q]? == some '!')) = true
              rw [hc]
              simp [hcondq, hqeq]
            rw [hbadW] at hbt
            exact Bool.false_ne_true hbt
    · have hsent : ¬ 5 * lastSentencePos W > 4 * L := by
        rw [lastSentence_eq_some hq]
        exact hcondq
      rw [if_neg hsent]
      exact truncate_whole_cut W L hL hlenW hpara hsent

/-- Idempotence of re-truncation, at window level, outside the exceptional
configuration. -/
theorem truncate_window_idem (W : Str) (L : Int) (hL : 0 ≤ L)
    (hlenW : (W.length : Int) = L) (hbadW : badCutW W L = false) :
    truncate_content (chooseCut W L ++ marker) L = chooseCut W L ++ marker := by
  unfold chooseCut
  rcases @pyRfind_cases W ('\n' :: '\n' :: []) (by simp)
    with hrf | ⟨p, hrf, hocc, _⟩
  · have hpara : ¬ 5 * pyRfind W ('\n' :: '\n' :: []) > 4 * L := by
      rw [hrf]
      omega
    rw [if_neg hpara]
    exact truncate_window_idem_sentence W L hL hlenW hbadW hpara
  · by_cases hcondp : 5 * (p : Int) > 4 * L
    · rw [hrf, if_pos hcondp, pySliceTo_ofNat]
      have hp2 : p + 2 ≤ W.length := occ_add_two_le hocc
      by_cases hsmall : (((W.take p ++ marker).length : Int) ≤ L)
      · exact truncate_noop_of_le _ _ hsmall
      · have hlen1 : (W.take p ++ marker).length = p + 24 := by
          rw [List.length_append, marker_length, List.length_take,
            min_eq_left (by omega)]
        rw [hlen1] at hsmall
        exact truncate_marker_cut W p L hL hlenW (by omega)
          (by push_cast at hsmall ⊢; omega) hcondp
    · have hpara : ¬ 5 * pyRfind W ('\n' :: '\n' :: []) > 4 * L := by
        rw [hrf]
        exact hcondp
      rw [if_neg hpara]
      exact truncate_window_idem_sentence W L hL hlenW hbadW hpara

/-- C2 counterexample: at `s = "aaaaaaaaa? aaaaaaaa"` and `L = 11` the first
truncation cuts at the `"? "` delimiter whose trailing space is the final
window character; re-truncating the result cuts elsewhere, so
`truncate(truncate(s, L), L) ≠ truncate(s, L)` although `L ≥ 0`. -/
theorem truncate_content_not_idempotent :
    ((0 : Int) ≤ 11) ∧
      truncate_content (truncate_content "aaaaaaaaa? aaaaaaaa".toList 11) 11 ≠
        truncate_content "aaaaaaaaa? aaaaaaaa".toList 11 := by
  constructor
  · decide
  · decide

/-- C2 (amended): `truncate_content` is idempotent for every string `s` and
limit `L ≥ 0` except in the exceptional configuration `badCut`: truncation
happening at a `"? "` or `"! "` sentence delimiter that starts exactly at
position `max_length - 2` of the window (so the delimiter's trailing space is
the window's last character and is lost to the cut). -/
theorem truncate_content_idempotent (s : Str) (L : Int) (hL : 0 ≤ L)
    (hbad : badCut s L = false) :
    truncate_content (truncate_content s L) L = truncate_content s L := by
  by_cases hlen : (s.length : Int) ≤ L
  · rw [truncate_noop_of_le s L hlen]
    exact truncate_noop_of_le s L hlen
  · rw [truncate_of_gt s L hlen]
    apply truncate_window_idem _ _ hL
    · rw [pySliceTo_nonneg _ _ hL, List.length_take]
      have hts : L.toNat ≤ s.length := by omega
      rw [min_eq_left hts]
      omega
    · rw [badCut, if_neg hlen] at hbad
      exact hbad

/-- Witness for `truncate_content_idempotent` at a concrete input. -/
theorem truncate_content_idempotent_witness :
    truncate_content
        (truncate_content "First sentence. Second sentence. Third sentence.".toList 30) 30 =
      truncate_content "First sentence. Second sentence. Third sentence.".toList 30 :=
  truncate_content_idempotent _ _ (by decide) (by decide)

/-- C1 counterexample: at `content = "abc"`, `max_length = -2` (an integer
with `len(content) > max_length`, as the claim quantifies), the code's `-1`
absence sentinel from `rfind` clears the negative threshold `0.8 × (-2)`, so
the code cuts one character off the window (`truncated[:-1]`) even though the
window has no paragraph break and no sentence delimiter, while the claim
dictates the raw window as cut.  So the claimed description is false as
stated over all integers. -/
theorem truncate_content_claimCut_counterexample :
    (("abc".toList.length : Int) > -2) ∧
      truncate_content "abc".toList (-2) ≠ claimCut "abc".toList (-2) ++ marker := by
  constructor
  · decide
  · decide

/-- C1 (amended: `max_length` restricted to non-negative integers): for content
longer than the limit, `truncate_content` returns the cut chosen in the claim's
stated order — paragraph boundary above the `0.8 × max_length` threshold, else
latest sentence delimiter above the threshold, else the raw
`content[:max_length]` window — followed by the literal truncation marker. -/
theorem truncate_content_eq_claimCut (content : Str) (L : Int) (hL : 0 ≤ L)
    (h : L < (content.length : Int)) :
    truncate_content content L = claimCut content L ++ marker := by
  have hnot : ¬ ((content.length : Int) ≤ L) := by omega
  simp only [truncate_content, if_neg hnot]
  unfold chooseCut
  rcases hp : lastOcc (pySliceTo content L) ('\n' :: '\n' :: []) with _ | p
  · have hrf : pyRfind (pySliceTo content L) ('\n' :: '\n' :: []) = -1 := by
      rw [pyRfind_eq_lastOcc (by simp), hp]
    rw [hrf, claimCut_none hp, if_neg (by omega), sentenceBranch_eq _ _ hL]
  · have hrf : pyRfind (pySliceTo content L) ('\n' :: '\n' :: []) = (p : Int) := by
      rw [pyRfind_eq_lastOcc (by simp), hp]
    rw [hrf, claimCut_some hp]
    by_cases hcond : 5 * (p : Int) > 4 * L
    · rw [if_pos hcond, if_pos hcond, pySliceTo_ofNat]
    · rw [if_neg hcond, if_neg hcond, sentenceBranch_eq _ _ hL]

/-- Witness for `truncate_content_eq_claimCut` at a concrete input. -/
theorem truncate_content_eq_claimCut_witness :
    truncate_content "First para.\n\nSecond para that is long".toList 20 =
      claimCut "First para.\n\nSecond para that is long".toList 20 ++ marker :=
  truncate_content_eq_claimCut _ _ (by decide) (by decide)

/-- C8: content whose length is at most `max_length` is returned unchanged by
`truncate_content`, with no truncation marker appended. -/
theorem truncate_content_id_of_le (content : Str) (L : Int)
    (h : (content.length : Int) ≤ L) : truncate_content content L = content :=
  truncate_noop_of_le content L h

/-- Witness for `truncate_content_id_of_le` at a concrete input. -/
theorem truncate_content_id_of_le_witness :
    truncate_content "Short content".toList 1000 = "Short content".toList :=
  truncate_content_id_of_le _ _ (by decide)

theorem dropWhile_head?_not (p : Char → Bool) :
    ∀ (l : Str) {c : Char}, (l.dropWhile p).head? = some c → p c = false
  | [], c => by simp
  | x :: xs, c => by
    by_cases hx : p x
    · rw [List.dropWhile_cons_of_pos hx]
      exact dropWhile_head?_not p xs
    · rw [List.dropWhile_cons_of_neg hx]
      intro h
      simp only [List.head?_cons, Option.some.injEq] at h
      rw [← h]
      exact Bool.eq_false_iff.mpr hx

theorem pyRstrip_prefix_self (l : Str) : pyRstrip l <+: l := by
  have h := List.reverse_prefix.mpr (List.dropWhile_suffix (l := l.reverse) pyIsSpace)
  rwa [List.reverse_reverse] at h

theorem pyLstrip_suffix (l : Str) : pyLstrip l <:+ l := List.dropWhile_suffix pyIsSpace

theorem pyStrip_infix_self (l : Str) : pyStrip l <:+: l :=
  ((pyRstrip_prefix_self (pyLstrip l)).isInfix).trans (pyLstrip_suffix l).isInfix

theorem pyRstrip_getLast?_not_space {l : Str} {c : Char}
    (h : (pyRstrip l).getLast? = some c) : pyIsSpace c = false := by
  rw [pyRstrip, List.getLast?_reverse] at h
  exact dropWhile_head?_not pyIsSpace _ h

theorem pyStrip_getLast?_not_space {l : Str} {c : Char}
    (h : (pyStrip l).getLast? = some c) : pyIsSpace c = false :=
  pyRstrip_getLast?_not_space h

theorem head?_of_prefix {l₁ l₂ : Str} (h : l₁ <+: l₂) {c : Char}
    (hc : l₁.head? = some c) : l₂.head? = some c := by
  obtain ⟨t, rfl⟩ := h
  cases l₁ with
  | nil => simp at hc
  | cons x xs => simpa using hc

theorem pyStrip_head?_not_space {l : Str} {c : Char}
    (h : (pyStrip l).head? = some c) : pyIsSpace c = false := by
  rw [pyStrip] at h
  have h2 := head?_of_prefix (pyRstrip_prefix_self (pyLstrip l)) h
  exact dropWhile_head?_not pyIsSpace _ h2

theorem pyRstrip_eq_nil_iff {l : Str} :
    pyRstrip l = [] ↔ ∀ c ∈ l, pyIsSpace c := by
  rw [pyRstrip, List.reverse_eq_nil_iff, List.dropWhile_eq_nil_iff]
  constructor
  · intro h c hc
    exact h c (by simpa using hc)
  · intro h c hc
    exact h c (by simpa using hc)

theorem getLast?_of_suffix {l₁ l₂ : Str} (h : l₁ <:+ l₂) (hne : l₁ ≠ [])
    {c : Char} (hc : l₁.getLast? = some c) : l₂.getLast? = some c := by
  obtain ⟨t, rfl⟩ := h
  rw [List.getLast?_append_of_ne_nil _ hne]
  exact hc

/-- The rstripped line is empty exactly when its own `strip()` is empty —
the source's `is_empty` test detects the empty rstripped line. -/
theorem pyStrip_pyRstrip_eq_nil_iff {line : Str} :
    pyStrip (pyRstrip line) = [] ↔ pyRstrip line = [] := by
  constructor
  · intro h
    by_contra hne
    have hlast : ∃ c, (pyRstrip line).getLast? = some c := by
      cases hgl : (pyRstrip line).getLast? with
      | none => exact absurd (List.getLast?_eq_none_iff.mp hgl) hne
      | some c => exact ⟨c, rfl⟩
    obtain ⟨c, hc⟩ := hlast
    have hcs : pyIsSpace c = false := pyRstrip_getLast?_not_space hc
    rw [pyStrip, pyRstrip_eq_nil_iff] at h
    by_cases hl : pyLstrip (pyRstrip line) = []
    · rw [pyLstrip, List.dropWhile_eq_nil_iff] at hl
      have := hl c (List.getElem?_mem (by rw [← List.getLast?_eq_getElem?]; exact hc))
      rw [hcs] at this
      exact absurd this (by simp)
    · have hc2 : (pyLstrip (pyRstrip line)).getLast? = some c := by
        obtain ⟨t, ht⟩ := pyLstrip_suffix (pyRstrip line)
        rw [← ht] at hc
        rw [List.getLast?_append_of_ne_nil _ hl] at hc
        exact hc
      have := h c (List.getElem?_mem (by rw [← List.getLast?_eq_getElem?]; exact hc2))
      rw [hcs] at this
      exact absurd this (by simp)
  · intro h
    rw [h]
    rfl

theorem infix_iff_exists_prefix_drop {pat l : Str} :
    pat <:+: l ↔ ∃ i, pat <+: l.drop i := by
  constructor
  · rintro ⟨s, t, rfl⟩
    refine ⟨s.length, ?_⟩
    rw [List.append_assoc, List.drop_left]
    exact ⟨t, rfl⟩
  · rintro ⟨i, v, hv⟩
    refine ⟨l.take i, v, ?_⟩
    rw [List.append_assoc, hv, List.take_append_drop]

theorem infix_pair_iff {a b : Char} {l : Str} :
    [a, b] <:+: l ↔ ∃ i, l[i]? = some a ∧ l[i + 1]? = some b := by
  rw [infix_iff_exists_prefix_drop]
  constructor
  · rintro ⟨i, h⟩
    exact ⟨i, (occ_pair_iff a b l i).mp h⟩
  · rintro ⟨i, h⟩
    exact ⟨i, (occ_pair_iff a b l i).mpr h⟩

theorem prefix_triple_iff (a b c : Char) (m : Str) :
    ([a, b, c] <+: m) ↔ m[0]? = some a ∧ m[1]? = some b ∧ m[2]? = some c := by
  cases m with
  | nil => simp
  | cons x t =>
    cases t with
    | nil => simp [List.cons_prefix_cons]
    | cons y u =>
      cases u with
      | nil => simp [List.cons_prefix_cons, eq_comm]
      | cons z v => simp [List.cons_prefix_cons, eq_comm]

theorem infix_triple_iff {a b c : Char} {l : Str} :
    [a, b, c] <:+: l ↔
      ∃ i, l[i]? = some a ∧ l[i + 1]? = some b ∧ l[i + 2]? = some c := by
  rw [infix_iff_exists_prefix_drop]
  constructor
  · rintro ⟨i, h⟩
    rw [prefix_triple_iff] at h
    simp only [List.getElem?_drop] at h
    exact ⟨i, by rw [show i + 1 = i + 1 by rfl] at h ⊢; simpa using h⟩
  · rintro ⟨i, h⟩
    refine ⟨i, ?_⟩
    rw [prefix_triple_iff]
    simp only [List.getElem?_drop]
    simpa using h

/-- Where a two-character pattern can sit inside an append: wholly left,
wholly right, or spanning the boundary. -/
theorem infix_pair_append {a b : Char} {A B : Str} (h : [a, b] <:+: A ++ B) :
    [a, b] <:+: A ∨ [a, b] <:+: B ∨
      (A.getLast? = some a ∧ B.head? = some b) := by
  rw [infix_pair_iff] at h
  obtain ⟨i, h1, h2⟩ := h
  rw [List.getElem?_append] at h1 h2
  by_cases hA1 : i + 1 < A.length
  · left
    rw [if_pos (by omega)] at h1
    rw [if_pos hA1] at h2
    exact infix_pair_iff.mpr ⟨i, h1, h2⟩
  · by_cases hA0 : i < A.length
    · right; right
      rw [if_pos hA0] at h1
      rw [if_neg hA1] at h2
      constructor
      · rw [List.getLast?_eq_getElem?]
        rw [show A.length - 1 = i by omega]
        exact h1
      · rw [List.head?_eq_getElem?]
        rw [show i + 1 - A.length = 0 by omega] at h2
        exact h2
    · right; left
      rw [if_neg hA0] at h1
      rw [if_neg hA1] at h2
      rw [show i + 1 - A.length = (i - A.length) + 1 by omega] at h2
      exact infix_pair_iff.mpr ⟨i - A.length, h1, h2⟩

/-- Where a three-character pattern can sit inside an append. -/
theorem infix_triple_append {a b c : Char} {A B : Str}
    (h : [a, b, c] <:+: A ++ B) :
    [a, b, c] <:+: A ∨ [a, b, c] <:+: B ∨
      (A.getLast? = some a ∧ B[0]? = some b ∧ B[1]? = some c) ∨
      (2 ≤ A.length ∧ A[A.length - 2]? = some a ∧ A.getLast? = some b ∧
        B.head? = some c) := by
  rw [infix_triple_iff] at h
  obtain ⟨i, h1, h2, h3⟩ := h
  rw [List.getElem?_append] at h1 h2 h3
  by_cases hA2 : i + 2 < A.length
  · left
    rw [if_pos (by omega)] at h1
    rw [if_pos (by omega)] at h2
    rw [if_pos hA2] at h3
    exact infix_triple_iff.mpr ⟨i, h1, h2, h3⟩
  · by_cases hA1 : i + 1 < A.length
    · -- a, b in A; c head of B
      right; right; right
      rw [if_pos (by omega)] at h1
      rw [if_pos hA1] at h2
      rw [if_neg hA2] at h3
      refine ⟨by omega, ?_, ?_, ?_⟩
      · rw [show A.length - 2 = i by omega]
        exact h1
      · rw [List.getLast?_eq_getElem?, show A.length - 1 = i + 1 by omega]
        exact h2
      · rw [show i + 2 - A.length = 0 by omega] at h3
        rw [List.head?_eq_getElem?]
        exact h3
    · by_cases hA0 : i < A.length
      · -- a last of A; b, c start B
        right; right; left
        rw [if_pos hA0] at h1
        rw [if_neg hA1] at h2
        rw [if_neg hA2] at h3
        refine ⟨?_, ?_, ?_⟩
        · rw [List.getLast?_eq_getElem?, show A.length - 1 = i by omega]
          exact h1
        · rw [show i + 1 - A.length = 0 by omega] at h2
          exact h2
        · rw [show i + 2 - A.length = 1 by omega] at h3
          exact h3
      · right; left
        rw [if_neg hA0] at h1
        rw [if_neg hA1] at h2
        rw [if_neg hA2] at h3
        rw [show i + 1 - A.length = (i - A.length) + 1 by omega] at h2
        rw [show i + 2 - A.length = (i - A.length) + 2 by omega] at h3
        exact infix_triple_iff.mpr ⟨i - A.length, h1, h2, h3⟩

theorem pySplitNl_no_newline : ∀ (l : Str), ∀ e ∈ pySplitNl l, '\n' ∉ e
  | [] => by
    intro e he
    simp only [pySplitNl, List.mem_singleton] at he
    simp [he]
  | c :: cs => by
    intro e he
    unfold pySplitNl at he
    by_cases hc : c = '\n'
    · rw [if_pos hc] at he
      rcases List.mem_cons.mp he with rfl | he'
      · simp
      · exact pySplitNl_no_newline cs e he'
    · rw [if_neg hc] at he
      rcases hsplit : pySplitNl cs with _ | ⟨l, ls⟩
      · rw [hsplit] at he
        simp only [List.mem_singleton] at he
        subst he
        simp only [List.mem_singleton]
        intro h
        exact hc h.symm
      · rw [hsplit] at he
        rcases List.mem_cons.mp he with rfl | he'
        · intro hmem
          rcases List.mem_cons.mp hmem with h1 | h2
          · exact hc h1.symm
          · exact pySplitNl_no_newline cs l (by rw [hsplit]; exact List.mem_cons_self _ _) h2
        · exact pySplitNl_no_newline cs e (by rw [hsplit]; exact List.mem_cons_of_mem _ he')

theorem cleanLines_mem : ∀ (lines : List Str) (b : Bool) (e : Str),
    e ∈ cleanLines lines b → ∃ l ∈ lines, e = pyRstrip l
  | [], b, e => by simp [cleanLines]
  | line :: rest, b, e => by
    intro he
    unfold cleanLines at he
    by_cases hcond : ((pyStrip (pyRstrip line)).isEmpty && b) = true
    · rw [if_pos hcond] at he
      obtain ⟨l, hl, hrfl⟩ := cleanLines_mem rest b e he
      exact ⟨l, List.mem_cons_of_mem _ hl, hrfl⟩
    · rw [if_neg hcond] at he
      rcases List.mem_cons.mp he with rfl | he'
      · exact ⟨line, List.mem_cons_self _ _, rfl⟩
      · obtain ⟨l, hl, hrfl⟩ := cleanLines_mem rest _ e he'
        exact ⟨l, List.mem_cons_of_mem _ hl, hrfl⟩

theorem cleanLines_chain : ∀ (lines : List Str) (b : Bool),
    List.Chain' (fun a b : Str => a = [] → b ≠ []) (cleanLines lines b) ∧
      (b = true → ∀ e, (cleanLines lines b).head? = some e → e ≠ [])
  | [], b => by simp [cleanLines]
  | line :: rest, b => by
    unfold cleanLines
    by_cases hcond : ((pyStrip (pyRstrip line)).isEmpty && b) = true
    · rw [if_pos hcond]
      have hb : b = true := by
        rcases Bool.and_eq_true_iff.mp hcond with ⟨_, hb⟩
        exact hb
      exact cleanLines_chain rest b
    · rw [if_neg hcond]
      constructor
      · rw [List.chain'_cons']
        constructor
        · intro y hy hnil
          have hie : (pyStrip (pyRstrip line)).isEmpty = true := by
            rw [hnil]
            rfl
          exact (cleanLines_chain rest _).2 hie y (Option.mem_def.mp hy)
        · exact (cleanLines_chain rest _).1
      · intro hb e he
        simp only [List.head?_cons, Option.some.injEq] at he
        subst he
        intro hnil
        have hie : (pyStrip (pyRstrip line)).isEmpty = true := by
          rw [hnil]
          rfl
        rw [hb, hie] at hcond
        exact hcond rfl

theorem joinLines_head_newline : ∀ (out : List Str), (∀ e ∈ out, '\n' ∉ e) →
    (joinLines out).head? = some '\n' → out.head? = some []
  | [] => by simp [joinLines]
  | [e] => by
    intro hF h
    exfalso
    apply hF e (List.mem_singleton.mpr rfl)
    rw [show joinLines [e] = e from rfl, List.head?_eq_getElem?] at h
    exact List.getElem?_mem h
  | e :: e2 :: rest => by
    intro hF h
    rw [show joinLines (e :: e2 :: rest) = e ++ '\n' :: joinLines (e2 :: rest) from rfl] at h
    cases e with
    | nil => rfl
    | cons x xs =>
      exfalso
      simp only [List.cons_append, List.head?_cons, Option.some.injEq] at h
      exact hF (x :: xs) (List.mem_cons_self _ _) (by rw [h]; exact List.mem_cons_self _ _)

theorem joinLines_no_head_pair (out : List Str) (hF1 : ∀ e ∈ out, '\n' ∉ e)
    (hchain : List.Chain' (fun a b : Str => a = [] → b ≠ []) out) :
    ¬ (['\n', '\n'] <+: joinLines out) := by
  intro h
  rw [prefix_pair_iff] at h
  have h0 : (joinLines out).head? = some '\n' := by
    rw [List.head?_eq_getElem?]
    exact h.1
  have hhead := joinLines_head_newline out hF1 h0
  cases out with
  | nil => simp at hhead
  | cons e out' =>
    have he : e = [] := by simpa using hhead
    subst he
    cases out' with
    | nil => simp [joinLines] at h
    | cons e2 rest =>
      rw [show joinLines ([] :: e2 :: rest) = '\n' :: joinLines (e2 :: rest) from rfl] at h
      have h1 : (joinLines (e2 :: rest)).head? = some '\n' := by
        rw [List.head?_eq_getElem?]
        simpa using h.2
      have he2 := joinLines_head_newline (e2 :: rest)
        (fun e he => hF1 e (List.mem_cons_of_mem _ he)) h1
      have he2' : e2 = [] := by simpa using he2
      rw [List.chain'_cons'] at hchain
      exact hchain.1 e2 (by rw [he2']; simp) rfl he2'

theorem joinLines_no_trailing : ∀ (out : List Str),
    (∀ e ∈ out, '\n' ∉ e) →
    (∀ e ∈ out, ∀ c, e.getLast? = some c → pyIsSpace c = false) →
    ∀ a, pyIsSpace a = true → a ≠ '\n' → ¬ ([a, '\n'] <:+: joinLines out)
  | [] => by
    intro _ _ a _ _ h
    rw [show joinLines [] = [] from rfl] at h
    have := h.length_le
    simp at this
  | [e] => by
    intro hF1 _ a _ _ h
    rw [show joinLines [e] = e from rfl] at h
    obtain ⟨i, _, h2⟩ := infix_pair_iff.mp h
    exact hF1 e (List.mem_singleton.mpr rfl) (List.getElem?_mem h2)
  | e :: e2 :: rest => by
    intro hF1 hF2 a hws hne h
    rw [show joinLines (e :: e2 :: rest) = e ++ '\n' :: joinLines (e2 :: rest) from rfl] at h
    rcases infix_pair_append h with h' | h' | ⟨hl, _⟩
    · obtain ⟨i, _, h2⟩ := infix_pair_iff.mp h'
      exact hF1 e (List.mem_cons_self _ _) (List.getElem?_mem h2)
    · rw [show ('\n' :: joinLines (e2 :: rest)) = ['\n'] ++ joinLines (e2 :: rest) from rfl] at h'
      rcases infix_pair_append h' with h'' | h'' | ⟨hl', _⟩
      · have := h''.length_le
        simp at this
      · exact joinLines_no_trailing (e2 :: rest)
          (fun x hx => hF1 x (List.mem_cons_of_mem _ hx))
          (fun x hx => hF2 x (List.mem_cons_of_mem _ hx)) a hws hne h''
      · simp only [List.getLast?_singleton, Option.some.injEq] at hl'
        exact hne hl'.symm
    · have hfalse := hF2 e (List.mem_cons_self _ _) a hl
      rw [hws] at hfalse
      exact absurd hfalse (by simp)

theorem joinLines_no_triple_newline : ∀ (out : List Str),
    (∀ e ∈ out, '\n' ∉ e) →
    List.Chain' (fun a b : Str => a = [] → b ≠ []) out →
    ¬ (['\n', '\n', '\n'] <:+: joinLines out)
  | [] => by
    intro _ _ h
    rw [show joinLines [] = [] from rfl] at h
    have := h.length_le
    simp at this
  | [e] => by
    intro hF1 _ h
    rw [show joinLines [e] = e from rfl] at h
    obtain ⟨i, _, h2, _⟩ := infix_triple_iff.mp h
    exact hF1 e (List.mem_singleton.mpr rfl) (List.getElem?_mem h2)
  | e :: e2 :: rest => by
    intro hF1 hchain h
    rw [show joinLines (e :: e2 :: rest) = e ++ '\n' :: joinLines (e2 :: rest) from rfl] at h
    have hF1' : ∀ x ∈ e2 :: rest, '\n' ∉ x := fun x hx => hF1 x (List.mem_cons_of_mem _ hx)
    have hchain' := (List.chain'_cons'.mp hchain).2
    rcases infix_triple_append h with h' | h' | ⟨hl, _, _⟩ | ⟨_, _, hl1, _⟩
    · obtain ⟨i, _, h2, _⟩ := infix_triple_iff.mp h'
      exact hF1 e (List.mem_cons_self _ _) (List.getElem?_mem h2)
    · rw [show ('\n' :: joinLines (e2 :: rest)) = ['\n'] ++ joinLines (e2 :: rest) from rfl] at h'
      rcases infix_triple_append h' with h'' | h'' | ⟨_, hb0, hb1⟩ | ⟨hlen2, _, _, _⟩
      · have := h''.length_le
        simp at this
      · exact joinLines_no_triple_newline (e2 :: rest) hF1' hchain' h''
      · exact joinLines_no_head_pair (e2 :: rest) hF1' hchain'
          ((prefix_pair_iff '\n' '\n' _).mpr ⟨hb0, hb1⟩)
      · simp at hlen2
    · exact hF1 e (List.mem_cons_self _ _)
        (List.getElem?_mem (by rw [← List.getLast?_eq_getElem?]; exact hl))
    · exact hF1 e (List.mem_cons_self _ _)
        (List.getElem?_mem (by rw [← List.getLast?_eq_getElem?]; exact hl1))

/-- C6: the markdown emerging from `html_to_markdown`'s whitespace cleanup —
for every string that the (external) rendering engine produced — has no
trailing whitespace on any line (no whitespace character immediately before a
newline, and a non-whitespace final character), never contains two or more
consecutive blank lines (no run of three newlines; interior blank lines are
exactly empty since space-only lines were rstripped), and has no leading or
trailing blank lines (its first and last characters are not whitespace).  In
particular an input with four or more consecutive blank lines yields at most
one consecutive blank line. -/
theorem html_to_markdown_whitespace (md : Str) :
    (∀ c, pyIsSpace c = true → c ≠ '\n' → ¬ ([c, '\n'] <:+: cleanWhitespace md)) ∧
      (¬ (['\n', '\n', '\n'] <:+: cleanWhitespace md)) ∧
      (∀ c, (cleanWhitespace md).head? = some c → pyIsSpace c = false) ∧
      (∀ c, (cleanWhitespace md).getLast? = some c → pyIsSpace c = false) := by
  have hF1 : ∀ e ∈ cleanLines (pySplitNl md) false, '\n' ∉ e := by
    intro e he
    obtain ⟨l, hl, hrfl⟩ := cleanLines_mem _ _ _ he
    subst hrfl
    intro hmem
    exact pySplitNl_no_newline md l hl ((pyRstrip_prefix_self l).sublist.subset hmem)
  have hF2 : ∀ e ∈ cleanLines (pySplitNl md) false, ∀ c,
      e.getLast? = some c → pyIsSpace c = false := by
    intro e he c hc
    obtain ⟨l, hl, hrfl⟩ := cleanLines_mem _ _ _ he
    subst hrfl
    exact pyRstrip_getLast?_not_space hc
  have hF3 := (cleanLines_chain (pySplitNl md) false).1
  refine ⟨?_, ?_, ?_, ?_⟩
  · intro c hws hne hinf
    exact joinLines_no_trailing _ hF1 hF2 c hws hne
      (hinf.trans (pyStrip_infix_self _))
  · intro hinf
    exact joinLines_no_triple_newline _ hF1 hF3 (hinf.trans (pyStrip_infix_self _))
  · intro c hc
    exact pyStrip_head?_not_space hc
  · intro c hc
    exact pyStrip_getLast?_not_space hc

/-- Witness for `html_to_markdown_whitespace` at a concrete input with four
consecutive blank lines and trailing spaces. -/
theorem html_to_markdown_whitespace_witness :
    ¬ ([' ', '\n'] <:+: cleanWhitespace "# Title  \n\n\n\n\nText  ".toList) :=
  (html_to_markdown_whitespace "# Title  \n\n\n\n\nText  ".toList).1 ' '
    (by decide) (by decide)

theorem removeAll_append (p : NodePred) : ∀ (x y : List Node),
    removeAll p (x ++ y) = removeAll p x ++ removeAll p y
  | [], y => by simp [removeAll]
  | n :: rest, y => by
    simp only [List.cons_append, removeAll, List.append_eq]
    rw [removeAll_append p rest y, List.append_assoc]

mutual
theorem removeAll_removeAll (p q : NodePred) : ∀ (f : List Node),
    removeAll p (removeAll q f) = removeAll (fun t a => q t a || p t a) f
  | [] => by simp [removeAll]
  | n :: rest => by
    simp only [removeAll, removeAll_append]
    rw [removeAllNode_removeAll p q n, removeAll_removeAll p q rest]
theorem removeAllNode_removeAll (p q : NodePred) : ∀ (n : Node),
    removeAll p (removeAllNode q n) = removeAllNode (fun t a => q t a || p t a) n
  | Node.text s => by simp [removeAll, removeAllNode]
  | Node.elem t a c => by
    by_cases hq : q t a
    · simp [removeAllNode, hq, removeAll]
    · by_cases hp : p t a
      · simp [removeAllNode, hq, hp, removeAll]
      · have hne : removeAllNode q (Node.elem t a c) =
            [Node.elem t a (removeAll q c)] := by
          simp [removeAllNode, hq]
        rw [hne]
        have hl : removeAll p [Node.elem t a (removeAll q c)] =
            [Node.elem t a (removeAll p (removeAll q c))] := by
          simp [removeAll, removeAllNode, hp]
        rw [hl, removeAll_removeAll p q c]
        simp [removeAllNode, hq, hp]
end

mutual
theorem removeAll_congr {p q : NodePred} (h : ∀ t a, p t a = q t a) :
    ∀ (f : List Node), removeAll p f = removeAll q f
  | [] => by simp [removeAll]
  | n :: rest => by
    simp only [removeAll]
    rw [removeAllNode_congr h n, removeAll_congr h rest]
theorem removeAllNode_congr {p q : NodePred} (h : ∀ t a, p t a = q t a) :
    ∀ (n : Node), removeAllNode p n = removeAllNode q n
  | Node.text s => by simp [removeAllNode]
  | Node.elem t a c => by
    simp only [removeAllNode, h t a]
    rw [removeAll_congr h c]
end

mutual
theorem removeAll_false : ∀ (f : List Node),
    removeAll (fun _ _ => false) f = f
  | [] => by simp [removeAll]
  | n :: rest => by
    simp only [removeAll]
    rw [removeAllNode_false n, removeAll_false rest]
    rfl
theorem removeAllNode_false : ∀ (n : Node),
    removeAllNode (fun _ _ => false) n = [n]
  | Node.text s => by simp [removeAllNode]
  | Node.elem t a c => by
    simp only [removeAllNode]
    rw [if_neg (by simp), removeAll_false c]
end

theorem removeList_eq : ∀ (ps : List NodePred) (f : List Node),
    removeList ps f = removeAll (fun t a => ps.any (fun p' => p' t a)) f
  | [], f => by
    simp only [removeList, List.foldl_nil, List.any_nil]
    exact (removeAll_false f).symm
  | p :: ps, f => by
    have h1 : removeList (p :: ps) f = removeList ps (removeAll p f) := rfl
    rw [h1, removeList_eq ps (removeAll p f), removeAll_removeAll]
    exact removeAll_congr (fun t a => by simp) f

theorem filterDoc_eq (doc : List Node) :
    filterDoc doc = removeAll removablePred doc := by
  rw [filterDoc, removeList_eq]
  exact removeAll_congr (fun t a => rfl) doc

theorem allNodes_append : ∀ (x y : List Node),
    allNodes (x ++ y) = allNodes x ++ allNodes y
  | [], y => by simp [allNodes]
  | n :: rest, y => by
    simp only [List.cons_append, allNodes, List.append_eq]
    rw [allNodes_append rest y, List.append_assoc]

theorem allNodes_singleton (n : Node) : allNodes [n] = allNodesNode n := by
  simp [allNodes]

mutual
theorem removeAll_clean (p : NodePred) : ∀ (f : List Node) (t : String)
    (a : List (String × String)) (c : List Node),
    Node.elem t a c ∈ allNodes (removeAll p f) → p t a = false
  | [], t, a, c => by simp [removeAll, allNodes]
  | n :: rest, t, a, c => by
    intro hmem
    simp only [removeAll, allNodes_append, List.mem_append] at hmem
    rcases hmem with h | h
    · exact removeAllNode_clean p n t a c h
    · exact removeAll_clean p rest t a c h
theorem removeAllNode_clean (p : NodePred) : ∀ (n : Node) (t : String)
    (a : List (String × String)) (c : List Node),
    Node.elem t a c ∈ allNodes (removeAllNode p n) → p t a = false
  | Node.text s, t, a, c => by simp [removeAllNode, allNodes, allNodesNode]
  | Node.elem t' a' c', t, a, c => by
    intro hmem
    by_cases hp : p t' a'
    · simp [removeAllNode, hp, allNodes] at hmem
    · simp only [removeAllNode, hp, if_false, allNodes, allNodesNode,
        List.append_nil] at hmem
      rcases List.mem_cons.mp hmem with h | h
      · injection h with h1 h2 _
        subst h1
        subst h2
        exact Bool.eq_false_iff.mpr hp
      · exact removeAll_clean p c' t a c h
end

mutual
theorem removeAll_of_clean (p : NodePred) : ∀ (f : List Node),
    (∀ t a c, Node.elem t a c ∈ allNodes f → p t a = false) →
    removeAll p f = f
  | [], _ => by simp [removeAll]
  | n :: rest, h => by
    simp only [removeAll]
    rw [removeAllNode_of_clean p n (fun t a c hm => h t a c (by
      simp only [allNodes, List.mem_append]
      exact Or.inl hm))]
    rw [removeAll_of_clean p rest (fun t a c hm => h t a c (by
      simp only [allNodes, List.mem_append]
      exact Or.inr hm))]
    rfl
theorem removeAllNode_of_clean (p : NodePred) : ∀ (n : Node),
    (∀ t a c, Node.elem t a c ∈ allNodesNode n → p t a = false) →
    removeAllNode p n = [n]
  | Node.text s, _ => by simp [removeAllNode]
  | Node.elem t a c, h => by
    have hself : p t a = false :=
      h t a c (by simp [allNodesNode])
    simp only [removeAllNode]
    rw [if_neg (by simp [hself])]
    rw [removeAll_of_clean p c (fun t' a' c' hm => h t' a' c' (by
      simp only [allNodesNode]
      exact List.mem_cons_of_mem _ hm))]
end

mutual
theorem allNodesNode_subset : ∀ (f : List Node) (m : Node),
    m ∈ allNodes f → ∀ n, n ∈ allNodesNode m → n ∈ allNodes f
  | [], m => by simp [allNodes]
  | x :: rest, m => by
    intro hm n hn
    simp only [allNodes, List.mem_append] at hm ⊢
    rcases hm with h | h
    · exact Or.inl (allNodesNode_subset_node x m h n hn)
    · exact Or.inr (allNodesNode_subset rest m h n hn)
theorem allNodesNode_subset_node : ∀ (x : Node) (m : Node),
    m ∈ allNodesNode x → ∀ n, n ∈ allNodesNode m → n ∈ allNodesNode x
  | Node.text s, m => by
    intro hm n hn
    simp only [allNodesNode, List.mem_singleton] at hm
    subst hm
    simpa [allNodesNode] using hn
  | Node.elem t a c, m => by
    intro hm n hn
    simp only [allNodesNode] at hm ⊢
    rcases List.mem_cons.mp hm with rfl | h
    · simpa [allNodesNode] using hn
    · exact List.mem_cons_of_mem _ (allNodesNode_subset c m h n hn)
end

mutual
theorem findFirst_some (p : NodePred) : ∀ (f : List Node) (m : Node),
    findFirst p f = some m →
    (∃ t a c, m = Node.elem t a c ∧ p t a = true) ∧ m ∈ allNodes f
  | [], m => by simp [findFirst]
  | n :: rest, m => by
    intro h
    rw [findFirst] at h
    rcases hn : findFirstNode p n with _ | x
    · rw [hn] at h
      obtain ⟨hshape, hmem⟩ := findFirst_some p rest m h
      exact ⟨hshape, by
        simp only [allNodes, List.mem_append]
        exact Or.inr hmem⟩
    · rw [hn] at h
      injection h with h
      subst h
      obtain ⟨hshape, hmem⟩ := findFirstNode_some p n x hn
      exact ⟨hshape, by
        simp only [allNodes, List.mem_append]
        exact Or.inl hmem⟩
theorem findFirstNode_some (p : NodePred) : ∀ (n : Node) (m : Node),
    findFirstNode p n = some m →
    (∃ t a c, m = Node.elem t a c ∧ p t a = true) ∧ m ∈ allNodesNode n
  | Node.text s, m => by simp [findFirstNode]
  | Node.elem t a c, m => by
    intro h
    rw [findFirstNode] at h
    by_cases hp : p t a
    · rw [if_pos hp] at h
      injection h with h
      subst h
      exact ⟨⟨t, a, c, rfl, hp⟩, by simp [allNodesNode]⟩
    · rw [if_neg hp] at h
      obtain ⟨hshape, hmem⟩ := findFirst_some p c m h
      exact ⟨hshape, by
        simp only [allNodesNode]
        exact List.mem_cons_of_mem _ hmem⟩
end

mutual
theorem findFirst_none (p : NodePred) : ∀ (f : List Node),
    findFirst p f = none ↔
      ∀ t a c, Node.elem t a c ∈ allNodes f → p t a = false
  | [] => by simp [findFirst, allNodes]
  | n :: rest => by
    rw [findFirst]
    rcases hn : findFirstNode p n with _ | x
    · have hiff1 := findFirstNode_none p n
      rw [hn] at hiff1
      have h1 : ∀ t a c, Node.elem t a c ∈ allNodesNode n → p t a = false :=
        hiff1.mp rfl
      rw [findFirst_none p rest]
      constructor
      · intro hall t a c hm
        simp only [allNodes, List.mem_append] at hm
        rcases hm with hm | hm
        · exact h1 t a c hm
        · exact hall t a c hm
      · intro hall t a c hm
        exact hall t a c (by
          simp only [allNodes, List.mem_append]
          exact Or.inr hm)
    · constructor
      · intro h
        exact absurd h (by simp)
      · intro hall
        exfalso
        obtain ⟨⟨t, a, c, rfl, hp⟩, hmem⟩ := findFirstNode_some p n x hn
        have := hall t a c (by
          simp only [allNodes, List.mem_append]
          exact Or.inl hmem)
        rw [hp] at this
        exact absurd this (by simp)
theorem findFirstNode_none (p : NodePred) : ∀ (n : Node),
    findFirstNode p n = none ↔
      ∀ t a c, Node.elem t a c ∈ allNodesNode n → p t a = false
  | Node.text s => by simp [findFirstNode, allNodesNode]
  | Node.elem t a c => by
    rw [findFirstNode]
    by_cases hp : p t a
    · rw [if_pos hp]
      constructor
      · intro h
        exact absurd h (by simp)
      · intro hall
        exfalso
        have := hall t a c (by simp [allNodesNode])
        rw [hp] at this
        exact absurd this (by simp)
    · rw [if_neg hp]
      rw [findFirst_none p c]
      constructor
      · intro hall t' a' c' hm
        simp only [allNodesNode] at hm
        rcases List.mem_cons.mp hm with heq | hm'
        · injection heq with h1 h2 _
          subst h1
          subst h2
          exact Bool.eq_false_iff.mpr hp
        · exact hall t' a' c' hm'
      · intro hall t' a' c' hm
        exact hall t' a' c' (by
          simp only [allNodesNode]
          exact List.mem_cons_of_mem _ hm)
end

theorem findFirst_singleton (p : NodePred) (t : String)
    (a : List (String × String)) (c : List Node) (hp : p t a = true) :
    findFirst p [Node.elem t a c] = some (Node.elem t a c) := by
  simp [findFirst, findFirstNode, hp]

theorem textsOf_append : ∀ (x y : List Node),
    textsOf (x ++ y) = textsOf x ++ textsOf y
  | [], y => by simp [textsOf]
  | n :: rest, y => by
    simp only [List.cons_append, textsOf, List.append_eq]
    rw [textsOf_append rest y, List.append_assoc]

mutual
theorem textsOf_removeAll_removable : ∀ (f : List Node),
    textsOf (removeAll removablePred f) = goodTexts f
  | [] => by simp [removeAll, textsOf, goodTexts]
  | n :: rest => by
    simp only [removeAll, goodTexts, textsOf_append]
    rw [textsOfNode_removeAll_removable n, textsOf_removeAll_removable rest]
theorem textsOfNode_removeAll_removable : ∀ (n : Node),
    textsOf (removeAllNode removablePred n) = goodTextsNode n
  | Node.text s => by simp [removeAllNode, textsOf, goodTextsNode, textsOfNode]
  | Node.elem t a c => by
    by_cases hr : removablePred t a
    · simp [removeAllNode, hr, textsOf, goodTextsNode]
    · have hrf : removablePred t a = false := Bool.eq_false_iff.mpr hr
      simp [removeAllNode, goodTextsNode, hrf, textsOf, textsOfNode,
        textsOf_removeAll_removable c]
end

mutual
theorem textsOfNode_subset : ∀ (f : List Node) (m : Node),
    m ∈ allNodes f → ∀ s, s ∈ textsOfNode m → s ∈ textsOf f
  | [], m => by simp [allNodes]
  | x :: rest, m => by
    intro hm s hs
    simp only [allNodes, List.mem_append] at hm
    simp only [textsOf, List.mem_append]
    rcases hm with h | h
    · exact Or.inl (textsOfNode_subset_node x m h s hs)
    · exact Or.inr (textsOfNode_subset rest m h s hs)
theorem textsOfNode_subset_node : ∀ (x : Node) (m : Node),
    m ∈ allNodesNode x → ∀ s, s ∈ textsOfNode m → s ∈ textsOfNode x
  | Node.text t, m => by
    intro hm s hs
    simp only [allNodesNode, List.mem_singleton] at hm
    subst hm
    exact hs
  | Node.elem t a c, m => by
    intro hm s hs
    simp only [allNodesNode] at hm
    rcases List.mem_cons.mp hm with rfl | h
    · exact hs
    · simp only [textsOfNode]
      exact textsOfNode_subset c m h s hs
end

theorem textsOf_singleton (n : Node) : textsOf [n] = textsOfNode n := by
  simp [textsOf]

theorem firstMatch_some : ∀ (table : List NodePred) (f : List Node) (m : Node),
    firstMatch table f = some m → ∃ p ∈ table, findFirst p f = some m
  | [], f, m => by simp [firstMatch]
  | p :: ps, f, m => by
    intro h
    rw [firstMatch] at h
    rcases hp : findFirst p f with _ | x
    · rw [hp] at h
      obtain ⟨p', hp', hfind⟩ := firstMatch_some ps f m h
      exact ⟨p', List.mem_cons_of_mem _ hp', hfind⟩
    · rw [hp] at h
      injection h with h
      subst h
      exact ⟨p, List.mem_cons_self _ _, hp⟩

theorem firstMatch_none_iff : ∀ (table : List NodePred) (f : List Node),
    firstMatch table f = none ↔ ∀ p ∈ table, findFirst p f = none
  | [], f => by simp [firstMatch]
  | p :: ps, f => by
    rw [firstMatch]
    rcases hp : findFirst p f with _ | x
    · rw [firstMatch_none_iff ps f]
      constructor
      · intro hall p' hp'
        rcases List.mem_cons.mp hp' with rfl | hmem
        · exact hp
        · exact hall p' hmem
      · intro hall p' hp'
        exact hall p' (List.mem_cons_of_mem _ hp')
    · constructor
      · intro h
        exact absurd h (by simp)
      · intro hall
        rw [hall p (List.mem_cons_self _ _)] at hp
        exact absurd hp (by simp)

theorem firstMatch_subtree : ∀ (table : List NodePred) (f : List Node) (m : Node),
    firstMatch table f = some m →
    (∀ n, n ∈ allNodesNode m → n ∈ allNodes f) →
    firstMatch table [m] = some m
  | [], f, m => by simp [firstMatch]
  | p :: ps, f, m => by
    intro h hsub
    rw [firstMatch] at h ⊢
    rcases hp : findFirst p f with _ | x
    · rw [hp] at h
      have hnone : findFirst p [m] = none := by
        rw [findFirst_none]
        intro t a c hmem
        rw [allNodes_singleton] at hmem
        exact (findFirst_none p f).mp hp t a c (hsub _ hmem)
      rw [hnone]
      exact firstMatch_subtree ps f m h hsub
    · rw [hp] at h
      injection h with h
      subst h
      obtain ⟨⟨t, a, c, rfl, hpt⟩, _⟩ := findFirst_some p f x hp
      rw [findFirst_singleton p t a c hpt]

theorem firstMatch_none_subtree (table : List NodePred) (f : List Node)
    (m : Node) (h : firstMatch table f = none)
    (hsub : ∀ n, n ∈ allNodesNode m → n ∈ allNodes f) :
    firstMatch table [m] = none := by
  rw [firstMatch_none_iff] at h ⊢
  intro p hp
  rw [findFirst_none]
  intro t a c hmem
  rw [allNodes_singleton] at hmem
  exact (findFirst_none p f).mp (h p hp) t a c (hsub _ hmem)

theorem chooseContainer_eq (soup : List Node) :
    chooseContainer soup = firstMatch selectorTable soup := by
  have hstep : ∀ (p : NodePred) (ps : List NodePred),
      firstMatch (p :: ps) soup = (findFirst p soup <|> firstMatch ps soup) := by
    intro p ps
    rw [firstMatch]
    cases h : findFirst p soup with
    | none => simp
    | some x => simp
  rw [chooseContainer, selectorTable]
  rw [hstep, hstep, hstep, hstep, hstep, hstep, hstep, hstep, hstep]
  simp [firstMatch]

theorem extract_eq_some {doc : List Node} {m : Node}
    (h : chooseContainer (filterDoc doc) = some m) :
    extract_main_content doc = [m] := by
  unfold extract_main_content
  rw [h]

theorem extract_eq_body {doc : List Node} {b : Node}
    (h1 : chooseContainer (filterDoc doc) = none)
    (h2 : findFirst (isTagP "body") (filterDoc doc) = some b) :
    extract_main_content doc = [b] := by
  unfold extract_main_content
  rw [h1, h2]

theorem extract_eq_whole {doc : List Node}
    (h1 : chooseContainer (filterDoc doc) = none)
    (h2 : findFirst (isTagP "body") (filterDoc doc) = none) :
    extract_main_content doc = filterDoc doc := by
  unfold extract_main_content
  rw [h1, h2]

theorem filterDoc_clean (doc : List Node) :
    ∀ t a c, Node.elem t a c ∈ allNodes (filterDoc doc) →
      removablePred t a = false := by
  intro t a c hm
  rw [filterDoc_eq] at hm
  exact removeAll_clean _ _ t a c hm

theorem filterDoc_of_clean {f : List Node}
    (h : ∀ t a c, Node.elem t a c ∈ allNodes f → removablePred t a = false) :
    filterDoc f = f := by
  rw [filterDoc_eq]
  exact removeAll_of_clean _ _ h

/-- C3: the container chooser realizes the claim's fixed priority table
(`<main>`, `<article>`, `role="main"`, `id="content"`, `id="main"`,
`id="main-content"`, class `content`, class `post`, class `article`),
returning the first match of the first matching selector; in particular,
whenever the filtered document contains a `<main>` element, the first such
element is returned, over any other candidate. -/
theorem extract_main_content_priority (doc : List Node) :
    chooseContainer (filterDoc doc) = firstMatch selectorTable (filterDoc doc) ∧
      ∀ m, findFirst (isTagP "main") (filterDoc doc) = some m →
        extract_main_content doc = [m] := by
  refine ⟨chooseContainer_eq _, ?_⟩
  intro m h
  apply extract_eq_some
  unfold chooseContainer
  rw [h]
  rfl

/-- Witness for `extract_main_content_priority`: a `<main>` is selected even
when an `<article>` precedes it. -/
theorem extract_main_content_priority_witness :
    extract_main_content
      [Node.elem "article" [] [Node.text "A"],
       Node.elem "main" [] [Node.text "M"],
       Node.elem "div" [("id", "content")] [Node.text "C"]] =
    [Node.elem "main" [] [Node.text "M"]] :=
  (extract_main_content_priority _).2 _ (by rfl)

/-- C4: extraction never fails — when no priority selector matches, the
`<body>` element's subtree is returned, and when additionally no `<body>`
exists, the entire filtered document is returned. -/
theorem extract_main_content_fallback (doc : List Node)
    (hnone : chooseContainer (filterDoc doc) = none) :
    (∀ b, findFirst (isTagP "body") (filterDoc doc) = some b →
      extract_main_content doc = [b]) ∧
      (findFirst (isTagP "body") (filterDoc doc) = none →
        extract_main_content doc = filterDoc doc) :=
  ⟨fun _ hb => extract_eq_body hnone hb, fun hb => extract_eq_whole hnone hb⟩

/-- Witness for `extract_main_content_fallback`: no recognized container and
no body yields the whole filtered document. -/
theorem extract_main_content_fallback_witness :
    extract_main_content [Node.elem "div" [] [Node.text "D"]] =
      filterDoc [Node.elem "div" [] [Node.text "D"]] :=
  (extract_main_content_fallback _ (by rfl)).2 (by rfl)

/-- C5: no element matching the removal denylist or the id/class patterns
survives into the extracted container, and every text of the output lies
outside every removable element's subtree of the input — so text found only
inside removed elements (e.g. `<nav>Navigation</nav>`) never appears. -/
theorem extract_main_content_removes_denylisted (doc : List Node) :
    (∀ t a c, Node.elem t a c ∈ allNodes (extract_main_content doc) →
      removablePred t a = false) ∧
      (∀ s, s ∈ textsOf (extract_main_content doc) → s ∈ goodTexts doc) := by
  have hsub : ∀ n, n ∈ allNodes (extract_main_content doc) →
      n ∈ allNodes (filterDoc doc) := by
    rcases hc : chooseContainer (filterDoc doc) with _ | m
    · rcases hb : findFirst (isTagP "body") (filterDoc doc) with _ | b
      · rw [extract_eq_whole hc hb]
        exact fun n hn => hn
      · rw [extract_eq_body hc hb]
        intro n hn
        rw [allNodes_singleton] at hn
        obtain ⟨_, hmem⟩ := findFirst_some _ _ _ hb
        exact allNodesNode_subset _ b hmem n hn
    · rw [extract_eq_some hc]
      intro n hn
      rw [allNodes_singleton] at hn
      rw [chooseContainer_eq] at hc
      obtain ⟨p, _, hfind⟩ := firstMatch_some _ _ _ hc
      obtain ⟨_, hmem⟩ := findFirst_some _ _ _ hfind
      exact allNodesNode_subset _ m hmem n hn
  have hsubT : ∀ s, s ∈ textsOf (extract_main_content doc) →
      s ∈ textsOf (filterDoc doc) := by
    rcases hc : chooseContainer (filterDoc doc) with _ | m
    · rcases hb : findFirst (isTagP "body") (filterDoc doc) with _ | b
      · rw [extract_eq_whole hc hb]
        exact fun s hs => hs
      · rw [extract_eq_body hc hb]
        intro s hs
        rw [textsOf_singleton] at hs
        obtain ⟨_, hmem⟩ := findFirst_some _ _ _ hb
        exact textsOfNode_subset _ b hmem s hs
    · rw [extract_eq_some hc]
      intro s hs
      rw [textsOf_singleton] at hs
      rw [chooseContainer_eq] at hc
      obtain ⟨p, _, hfind⟩ := firstMatch_some _ _ _ hc
      obtain ⟨_, hmem⟩ := findFirst_some _ _ _ hfind
      exact textsOfNode_subset _ m hmem s hs
  constructor
  · intro t a c hmem
    exact filterDoc_clean doc t a c (hsub _ hmem)
  · intro s hs
    have h2 := hsubT s hs
    rw [filterDoc_eq, textsOf_removeAll_removable] at h2
    exact h2

/-- Witness for `extract_main_content_removes_denylisted`: the surviving
`<main>` element of a document with a `<nav>` sibling is not removable. -/
theorem extract_main_content_removes_denylisted_witness :
    removablePred "main" [] = false :=
  (extract_main_content_removes_denylisted
    [Node.elem "body" [] [Node.elem "nav" [] [Node.text "Navigation"],
      Node.elem "main" [] [Node.text "Content"]]]).1 "main" [] [Node.text "Content"]
    (by
      rw [show allNodes (extract_main_content
          [Node.elem "body" [] [Node.elem "nav" [] [Node.text "Navigation"],
            Node.elem "main" [] [Node.text "Content"]]]) =
        [Node.elem "main" [] [Node.text "Content"], Node.text "Content"] from rfl]
      exact List.mem_cons_self _ _)

/-- C10: extraction is idempotent at document-tree level — running
`extract_main_content` on an already-extracted container removes nothing
further and selects the same container.  (Serializing the container and
re-parsing it is the external parser's round trip.) -/
theorem extract_main_content_idempotent (doc : List Node) :
    extract_main_content (extract_main_content doc) =
      extract_main_content doc := by
  rcases hc : chooseContainer (filterDoc doc) with _ | m
  · rcases hb : findFirst (isTagP "body") (filterDoc doc) with _ | b
    · rw [extract_eq_whole hc hb]
      have hfd : filterDoc (filterDoc doc) = filterDoc doc :=
        filterDoc_of_clean (filterDoc_clean doc)
      have h1' : chooseContainer (filterDoc (filterDoc doc)) = none := by
        rw [hfd]
        exact hc
      have h2' : findFirst (isTagP "body") (filterDoc (filterDoc doc)) = none := by
        rw [hfd]
        exact hb
      rw [extract_eq_whole h1' h2', hfd]
    · rw [extract_eq_body hc hb]
      obtain ⟨⟨t, a, c, rfl, hpt⟩, hmem⟩ := findFirst_some _ _ _ hb
      have hsubn : ∀ n, n ∈ allNodesNode (Node.elem t a c) →
          n ∈ allNodes (filterDoc doc) :=
        fun n hn => allNodesNode_subset _ _ hmem n hn
      have hfb : filterDoc [Node.elem t a c] = [Node.elem t a c] := by
        apply filterDoc_of_clean
        intro t' a' c' hm
        rw [allNodes_singleton] at hm
        exact filterDoc_clean doc t' a' c' (hsubn _ hm)
      apply extract_eq_body
      · rw [hfb, chooseContainer_eq]
        rw [chooseContainer_eq] at hc
        exact firstMatch_none_subtree _ _ _ hc hsubn
      · rw [hfb]
        exact findFirst_singleton _ t a c hpt
  · rw [extract_eq_some hc]
    rw [chooseContainer_eq] at hc
    obtain ⟨p, hp, hfind⟩ := firstMatch_some _ _ _ hc
    obtain ⟨⟨t, a, c, rfl, hpt⟩, hmem⟩ := findFirst_some _ _ _ hfind
    have hsubn : ∀ n, n ∈ allNodesNode (Node.elem t a c) →
        n ∈ allNodes (filterDoc doc) :=
      fun n hn => allNodesNode_subset _ _ hmem n hn
    have hfm : filterDoc [Node.elem t a c] = [Node.elem t a c] := by
      apply filterDoc_of_clean
      intro t' a' c' hm
      rw [allNodes_singleton] at hm
      exact filterDoc_clean doc t' a' c' (hsubn _ hm)
    apply extract_eq_some
    rw [hfm, chooseContainer_eq]
    exact firstMatch_subtree _ _ _ hc hsubn

/-- C7 counterexample: bs4's `find(class_="content")` matches whole class
tokens, not substrings.  In a document whose only candidates are
`class="main-content-area"` (a substring match only) and `class="post"`,
the earlier selectors all fail, yet the code selects the `post` element,
not the element the claim says qualifies via the substring. -/
theorem extract_class_substring_counterexample :
    firstMatch (selectorTable.take 6)
        (filterDoc
          [Node.elem "div" [("class", "main-content-area")] [Node.text "A"],
           Node.elem "div" [("class", "post")] [Node.text "B"]]) = none ∧
      listInfixB "content".toList "main-content-area".toList = true ∧
      extract_main_content
          [Node.elem "div" [("class", "main-content-area")] [Node.text "A"],
           Node.elem "div" [("class", "post")] [Node.text "B"]] =
        [Node.elem "div" [("class", "post")] [Node.text "B"]] ∧
      extract_main_content
          [Node.elem "div" [("class", "main-content-area")] [Node.text "A"],
           Node.elem "div" [("class", "post")] [Node.text "B"]] ≠
        [Node.elem "div" [("class", "main-content-area")] [Node.text "A"]] := by
  refine ⟨by rfl, by rfl, by rfl, ?_⟩
  intro h
  exact absurd (congrArg textsOf h) (by decide)

/-- C7 (amended): when the six earlier selectors (`<main>`, `<article>`,
`role="main"`, and the three ids) have no match, the selected element is the
first one whose `class` attribute contains `"content"` as a
whitespace-separated class token — exact token match, so
`class="content extra"` qualifies while `class="main-content-area"` does
not. -/
theorem extract_class_token_priority (doc : List Node)
    (h6 : firstMatch (selectorTable.take 6) (filterDoc doc) = none) :
    ∀ m, findFirst (hasClassTokenP "content") (filterDoc doc) = some m →
      extract_main_content doc = [m] := by
  intro m hm
  apply extract_eq_some
  rw [firstMatch_none_iff] at h6
  have h1 := h6 (isTagP "main") (by simp [selectorTable])
  have h2 := h6 (isTagP "article") (by simp [selectorTable])
  have h3 := h6 (attrEqP "role" "main") (by simp [selectorTable])
  have h4 := h6 (attrEqP "id" "content") (by simp [selectorTable])
  have h5 := h6 (attrEqP "id" "main") (by simp [selectorTable])
  have h6' := h6 (attrEqP "id" "main-content") (by simp [selectorTable])
  unfold chooseContainer
  rw [h1, h2, h3, h4, h5, h6', hm]
  rfl

/-- Witness for `extract_class_token_priority`: an element with
`class="content extra"` is selected by exact token match. -/
theorem extract_class_token_priority_witness :
    extract_main_content
      [Node.elem "div" [("class", "content extra")] [Node.text "X"],
       Node.elem "p" [] [Node.text "Y"]] =
    [Node.elem "div" [("class", "content extra")] [Node.text "X"]] :=
  extract_class_token_priority _ (by rfl) _ (by rfl)

/-- C9: anchor rendering.  On the fallback path, an `<a>` element with empty
link text or with a missing (or empty) `href` contributes no link output at
all, while an anchor with non-empty text and an href contributes exactly
`[link text](href)` (the href having been resolved upstream when a base URL
was given).  The preferred markdownify path, modelled from the spec's
rendering contract, drops and renders anchors identically. -/
theorem anchor_rendering :
    (∀ (attrs : List (String × String)) (children : List Node),
      ((getTextStrip children = "" ∨ (List.lookup "href" attrs).getD "" = "") →
        processElement (Node.elem "a" attrs children) = []) ∧
      (getTextStrip children ≠ "" → (List.lookup "href" attrs).getD "" ≠ "" →
        processElement (Node.elem "a" attrs children) =
          ["[" ++ getTextStrip children ++ "](" ++
            (List.lookup "href" attrs).getD "" ++ ")"])) ∧
    (∀ text href : String,
      ((text = "" ∨ href = "") → markdownify_convert_a text href = none) ∧
      (text ≠ "" → href ≠ "" →
        markdownify_convert_a text href =
          some ("[" ++ text ++ "](" ++ href ++ ")"))) := by
  constructor
  · intro attrs children
    constructor
    · intro h
      have hcond : ¬ (getTextStrip children ≠ "" ∧
          (List.lookup "href" attrs).getD "" ≠ "") := by
        rcases h with h | h
        · exact fun hc => hc.1 h
        · exact fun hc => hc.2 h
      simp [processElement, headingLevel, hcond]
    · intro h1 h2
      simp [processElement, headingLevel, h1, h2]
  · intro text href
    constructor
    · intro h
      simp [markdownify_convert_a, h]
    · intro h1 h2
      simp [markdownify_convert_a, h1, h2]

/-- Witness for `anchor_rendering` at a concrete anchor. -/
theorem anchor_rendering_witness :
    processElement (Node.elem "a" [("href", "https://example.com/page")]
        [Node.text "link text"]) =
      ["[" ++ getTextStrip [Node.text "link text"] ++ "](" ++
        (List.lookup "href" [("href", "https://example.com/page")]).getD "" ++ ")"] :=
  (anchor_rendering.1 [("href", "https://example.com/page")]
    [Node.text "link text"]).2 (by decide) (by decide)
